import Mathlib

/-!
Verification of the compact bucketed Cuckoo hash table from
`include/cuckoo.cuh` (class `Cuckoo`).

The device code is shallowly embedded: machine integers become `Nat` with
explicit `% 2 ^ w` where the C++ types truncate, the row slab becomes a
`List Nat` indexed by `bucket * bucket_size + lane`, and the cooperative
(tile) protocol is embedded sequentially: lanes of one tile act in rank
order, tiles act in window order, which realises one legal schedule of the
SIMT program.

The key permutation family, the `Result` enum and the bit-mask helper live
in `quotient.cuh`, `table.cuh` and `bits.h`, which are not among the
provided sources; those are modelled from the spec as noted on their
definitions.  Everything else is translated from `cuckoo.cuh`.
-/

namespace CPHT

/-- Result enum. Modelled from the spec: `Result` is declared in `table.cuh`
(not among the provided sources); the spec fixes a three-valued outcome
`FOUND`, `PUT`, `FULL` (the internal scratch value `EMPTY` is encoded as
`PUT`). -/
inductive Result where
  | FOUND
  | PUT
  | FULL
deriving DecidableEq, Repr

/-- Bit mask of width `w`. Modelled from the spec: `mask` is declared in
`bits.h` (bits utility: bit masks), not among the provided sources. -/
def mask (w : Nat) : Nat := (1 <<< w) - 1

/-- C++ `std::bit_width`: number of bits needed to represent `n`
(`0` for `n = 0`, otherwise `⌊log₂ n⌋ + 1`). -/
def log2go : Nat → Nat → Nat
  | 0, _ => 0
  | f + 1, n => if 2 ≤ n then log2go f (n / 2) + 1 else 0

lemma log2go_eq : ∀ f n, n ≤ f → log2go f n = Nat.log2 n := by
  intro f
  induction f with
  | zero =>
    intro n hn
    have : n = 0 := by omega
    subst this
    rw [Nat.log2.eq_def]
    rfl
  | succ m ih =>
    intro n hn
    rw [Nat.log2.eq_def]
    show (if 2 ≤ n then log2go m (n / 2) + 1 else 0) = _
    by_cases h2 : 2 ≤ n
    · rw [if_pos h2, if_pos h2, ih (n / 2) (by omega)]
    · rw [if_neg h2, if_neg h2]

def bitWidth (n : Nat) : Nat := if n = 0 then 0 else log2go n n + 1

/-- Static configuration of a `Cuckoo` table: the template parameters
`row_type` (kept as its bit width), `bucket_size`, `n_hash_functions`, and
the constructor parameters `key_width`, `addr_width`.  The permutation is
modelled from the spec (`quotient.cuh` is not among the provided sources)
as a pluggable family of bijections with an exact inverse. -/
structure Cuckoo where
  rowWidth : Nat
  bucketSize : Nat
  nHash : Nat
  keyWidth : Nat
  addrWidth : Nat
  perm : Nat → Nat → Nat
  permInv : Nat → Nat → Nat

namespace Cuckoo

/-- Field `rem_width = key_width - addr_width` of the constructor. -/
def remWidth (c : Cuckoo) : Nat := c.keyWidth - c.addrWidth

/-- Field `state_width = std::bit_width(n_hash_functions)`. -/
def stateWidth (c : Cuckoo) : Nat := bitWidth c.nHash

/-- Constant `max_chain_length = 20 * n_hash_functions`. -/
def maxChainLength (c : Cuckoo) : Nat := 20 * c.nHash

/-- Constant `block_size = 128`. -/
def blockSize : Nat := 128

/-- Number of slots `N · B` with `N = 2 ^ addr_width` buckets of
`bucket_size` slots each (spec §3); all bucket-indexed accesses of the
source stay below this bound. -/
def nSlots (c : Cuckoo) : Nat := 2 ^ c.addrWidth * c.bucketSize

/-- Field initialiser of the constructor, verbatim:
`n_rows((1ull << addr_width) * sizeof(*rows) * bucket_size)`;
`sizeof(*rows)` is `rowWidth / 8` bytes. -/
def n_rows (c : Cuckoo) : Nat := (1 <<< c.addrWidth) * (c.rowWidth / 8) * c.bucketSize

/-- Member `addr_row`: hash key `k` with function `hash_id` to a bucket
address and a row entry.  The row is truncated to `row_type`
(`% 2 ^ rowWidth`), matching the narrowing conversion when the row is
stored. -/
def addr_row (c : Cuckoo) (hash_id k : Nat) : Nat × Nat :=
  let pk := c.perm hash_id k
  let addr := pk &&& mask c.addrWidth
  let rem := pk >>> c.addrWidth
  (addr, (((hash_id + 1) <<< (c.rowWidth - c.stateWidth)) ||| rem) % 2 ^ c.rowWidth)

/-- Member `hash_key`: restore hash id and key from address and row. -/
def hash_key (c : Cuckoo) (addr row : Nat) : Nat × Nat :=
  let hash_id := (row >>> (c.rowWidth - c.stateWidth)) - 1
  let rem := row &&& mask c.remWidth
  let pk := (rem <<< c.addrWidth) ||| addr
  (hash_id, c.permInv hash_id pk)

/-- Well-formedness of a configuration: the constructor's assertions
(`sizeof(row_type)*8 >= state_width + rem_width`, positive bucket size) and
the spec's requirements on the permutation family (a seeded bijection of
`[0, 2^W)` with an exact inverse, split per hash id). -/
structure WF (c : Cuckoo) : Prop where
  bucket_pos : 0 < c.bucketSize
  hash_pos : 0 < c.nHash
  addr_le : c.addrWidth ≤ c.keyWidth
  row_wide : c.stateWidth + c.remWidth ≤ c.rowWidth
  perm_lt : ∀ h k, h < c.nHash → k < 2 ^ c.keyWidth → c.perm h k < 2 ^ c.keyWidth
  perm_inv : ∀ h k, h < c.nHash → k < 2 ^ c.keyWidth → c.permInv h (c.perm h k) = k

end Cuckoo

section Arith

lemma mask_eq (w : Nat) : mask w = 2 ^ w - 1 := by
  simp [mask, Nat.shiftLeft_eq]

lemma and_mask (x w : Nat) : x &&& mask w = x % 2 ^ w := by
  rw [mask_eq]
  exact Nat.and_pow_two_sub_one_eq_mod x w

lemma lor_eq_add {b n : Nat} (hb : b < 2 ^ n) (a : Nat) :
    (a * 2 ^ n) ||| b = a * 2 ^ n + b := by
  rw [Nat.mul_comm a (2 ^ n), ← Nat.mul_add_lt_is_or hb a]

lemma nHash_lt_two_pow_stateWidth (c : Cuckoo) : c.nHash < 2 ^ c.stateWidth := by
  unfold Cuckoo.stateWidth bitWidth
  split
  · omega
  · rw [log2go_eq _ _ (Nat.le_refl _)]
    exact Nat.lt_log2_self

end Arith

namespace Cuckoo

/-- Arithmetic normal form of `addr_row`: address is the low `addr_width`
bits of the permuted key, the row is the state tag `(hash_id+1)` above the
remainder bits. -/
lemma addr_row_eq (c : Cuckoo) (hwf : c.WF) {h k : Nat}
    (hh : h < c.nHash) (hk : k < 2 ^ c.keyWidth) :
    c.addr_row h k =
      (c.perm h k % 2 ^ c.addrWidth,
       (h + 1) * 2 ^ (c.rowWidth - c.stateWidth) + c.perm h k / 2 ^ c.addrWidth) := by
  have hpk : c.perm h k < 2 ^ c.keyWidth := hwf.perm_lt h k hh hk
  have hrem : c.perm h k / 2 ^ c.addrWidth < 2 ^ c.remWidth := by
    apply Nat.div_lt_of_lt_mul
    calc c.perm h k < 2 ^ c.keyWidth := hpk
    _ = 2 ^ c.addrWidth * 2 ^ c.remWidth := by
          rw [← Nat.pow_add]
          congr 1
          have := hwf.addr_le
          unfold Cuckoo.remWidth
          omega
  have hremW : c.remWidth ≤ c.rowWidth - c.stateWidth := by
    have := hwf.row_wide
    omega
  have hrem2 : c.perm h k / 2 ^ c.addrWidth < 2 ^ (c.rowWidth - c.stateWidth) :=
    lt_of_lt_of_le hrem (Nat.pow_le_pow_right (by omega) hremW)
  have hstate : h + 1 < 2 ^ c.stateWidth :=
    lt_of_le_of_lt hh (nHash_lt_two_pow_stateWidth c)
  have hsw : c.stateWidth ≤ c.rowWidth := le_trans (Nat.le_add_right _ _) hwf.row_wide
  have hrow : (h + 1) * 2 ^ (c.rowWidth - c.stateWidth) + c.perm h k / 2 ^ c.addrWidth
      < 2 ^ c.rowWidth := by
    have h1 : (h + 1) * 2 ^ (c.rowWidth - c.stateWidth) + c.perm h k / 2 ^ c.addrWidth
        < (h + 1 + 1) * 2 ^ (c.rowWidth - c.stateWidth) := by
      have hx : (h + 1 + 1) * 2 ^ (c.rowWidth - c.stateWidth)
          = (h + 1) * 2 ^ (c.rowWidth - c.stateWidth) + 2 ^ (c.rowWidth - c.stateWidth) := by
        ring
      rw [hx]
      omega
    have h2 : (h + 1 + 1) * 2 ^ (c.rowWidth - c.stateWidth)
        ≤ 2 ^ c.stateWidth * 2 ^ (c.rowWidth - c.stateWidth) :=
      Nat.mul_le_mul_right _ (by omega)
    have h3 : 2 ^ c.stateWidth * 2 ^ (c.rowWidth - c.stateWidth) = 2 ^ c.rowWidth := by
      rw [← Nat.pow_add]
      congr 1
      omega
    exact lt_of_lt_of_le h1 (h3 ▸ h2)
  unfold addr_row
  simp only [and_mask, Nat.shiftRight_eq_div_pow, Nat.shiftLeft_eq]
  rw [lor_eq_add hrem2, Nat.mod_eq_of_lt hrow]

/-- Round trip: decoding `addr_row` with `hash_key` restores the hash id
and the key (relies on the exact inverse of the permutation). -/
lemma hash_key_addr_row (c : Cuckoo) (hwf : c.WF) {h k : Nat}
    (hh : h < c.nHash) (hk : k < 2 ^ c.keyWidth) :
    c.hash_key (c.addr_row h k).1 (c.addr_row h k).2 = (h, k) := by
  rw [addr_row_eq c hwf hh hk]
  have hpk : c.perm h k < 2 ^ c.keyWidth := hwf.perm_lt h k hh hk
  have hrem : c.perm h k / 2 ^ c.addrWidth < 2 ^ c.remWidth := by
    apply Nat.div_lt_of_lt_mul
    calc c.perm h k < 2 ^ c.keyWidth := hpk
    _ = 2 ^ c.addrWidth * 2 ^ c.remWidth := by
          rw [← Nat.pow_add]
          congr 1
          have := hwf.addr_le
          unfold Cuckoo.remWidth
          omega
  have hremW : c.remWidth ≤ c.rowWidth - c.stateWidth := by
    have := hwf.row_wide
    omega
  have hrem2 : c.perm h k / 2 ^ c.addrWidth < 2 ^ (c.rowWidth - c.stateWidth) :=
    lt_of_lt_of_le hrem (Nat.pow_le_pow_right (by omega) hremW)
  unfold hash_key
  simp only [and_mask, Nat.shiftRight_eq_div_pow, Nat.shiftLeft_eq]
  have hdiv : ((h + 1) * 2 ^ (c.rowWidth - c.stateWidth) + c.perm h k / 2 ^ c.addrWidth)
      / 2 ^ (c.rowWidth - c.stateWidth) = h + 1 := by
    rw [Nat.mul_comm (h + 1) _, Nat.mul_add_div (Nat.two_pow_pos _), Nat.div_eq_of_lt hrem2]
  have hmod : ((h + 1) * 2 ^ (c.rowWidth - c.stateWidth) + c.perm h k / 2 ^ c.addrWidth)
      % 2 ^ c.remWidth = c.perm h k / 2 ^ c.addrWidth := by
    obtain ⟨e, he⟩ : ∃ e, c.rowWidth - c.stateWidth = c.remWidth + e :=
      ⟨_, (Nat.add_sub_cancel' hremW).symm⟩
    rw [he, Nat.pow_add, ← Nat.mul_assoc, Nat.mul_right_comm (h + 1) (2 ^ c.remWidth) (2 ^ e)]
    rw [Nat.add_comm, Nat.add_mul_mod_self_right]
    exact Nat.mod_eq_of_lt hrem
  rw [hdiv, hmod, Nat.add_sub_cancel]
  have hre : c.perm h k / 2 ^ c.addrWidth * 2 ^ c.addrWidth
      ||| c.perm h k % 2 ^ c.addrWidth
      = c.perm h k := by
    rw [lor_eq_add (Nat.mod_lt _ (Nat.two_pow_pos _)) _, Nat.mul_comm]
    exact Nat.div_add_mod _ _
  rw [hre, hwf.perm_inv h k hh hk]

/-- Address component of `addr_row` is a bucket index below `2 ^ addr_width`. -/
lemma addr_row_fst_lt (c : Cuckoo) (h k : Nat) : (c.addr_row h k).1 < 2 ^ c.addrWidth := by
  unfold addr_row
  simp only [and_mask]
  exact Nat.mod_lt _ (Nat.two_pow_pos _)

/-- Rows produced by `addr_row` are nonzero: the state tag `hash_id + 1` is
at least 1 and survives the `row_type` truncation. -/
lemma addr_row_snd_ne_zero (c : Cuckoo) (hwf : c.WF) {h k : Nat}
    (hh : h < c.nHash) (hk : k < 2 ^ c.keyWidth) : (c.addr_row h k).2 ≠ 0 := by
  rw [addr_row_eq c hwf hh hk]
  dsimp only
  have hp : 0 < (h + 1) * 2 ^ (c.rowWidth - c.stateWidth) :=
    Nat.mul_pos (Nat.succ_pos h) (Nat.two_pow_pos _)
  exact (Nat.lt_of_lt_of_le hp (Nat.le_add_right _ _)).ne'

/-- The compact encoding is injective on valid hash ids and keys. -/
lemma addr_row_inj (c : Cuckoo) (hwf : c.WF) {h₁ k₁ h₂ k₂ : Nat}
    (hh₁ : h₁ < c.nHash) (hk₁ : k₁ < 2 ^ c.keyWidth)
    (hh₂ : h₂ < c.nHash) (hk₂ : k₂ < 2 ^ c.keyWidth)
    (heq : c.addr_row h₁ k₁ = c.addr_row h₂ k₂) : h₁ = h₂ ∧ k₁ = k₂ := by
  have e₁ := hash_key_addr_row c hwf hh₁ hk₁
  have e₂ := hash_key_addr_row c hwf hh₂ hk₂
  rw [heq] at e₁
  have := e₁.symm.trans e₂
  exact ⟨(Prod.mk.injEq _ _ _ _).mp this |>.1, (Prod.mk.injEq _ _ _ _).mp this |>.2⟩

end Cuckoo

/-- The slab of row entries, indexed by `bucket * bucket_size + lane`. -/
abbrev Table := List Nat

section ListFacts

lemma getD_set_self {β : Type} {l : List β} {i : Nat} {v d : β} (h : i < l.length) :
    (l.set i v).getD i d = v := by
  simp [List.getD_eq_getElem?_getD, List.getElem?_set_self h]

lemma getD_set_ne {β : Type} {l : List β} {i j : Nat} {v d : β} (h : i ≠ j) :
    (l.set i v).getD j d = l.getD j d := by
  simp [List.getD_eq_getElem?_getD, List.getElem?_set_ne h]

lemma slot_eq_iff {B a₁ r₁ a₂ r₂ : Nat} (h₁ : r₁ < B) (h₂ : r₂ < B) :
    a₁ * B + r₁ = a₂ * B + r₂ ↔ a₁ = a₂ ∧ r₁ = r₂ := by
  constructor
  · intro h
    have hB : 0 < B := by omega
    have hd : (a₁ * B + r₁) / B = (a₂ * B + r₂) / B := by rw [h]
    have hm : (a₁ * B + r₁) % B = (a₂ * B + r₂) % B := by rw [h]
    rw [Nat.mul_comm a₁ B, Nat.mul_add_div hB, Nat.div_eq_of_lt h₁,
        Nat.mul_comm a₂ B, Nat.mul_add_div hB, Nat.div_eq_of_lt h₂] at hd
    rw [Nat.mul_comm a₁ B, Nat.mul_add_mod, Nat.mod_eq_of_lt h₁,
        Nat.mul_comm a₂ B, Nat.mul_add_mod, Nat.mod_eq_of_lt h₂] at hm
    omega
  · rintro ⟨rfl, rfl⟩
    rfl

lemma slot_div {B a r : Nat} (hr : r < B) : (a * B + r) / B = a := by
  have hB : 0 < B := by omega
  rw [Nat.mul_comm a B, Nat.mul_add_div hB, Nat.div_eq_of_lt hr]
  omega

lemma countP_update (l : List Nat) (hl : l.Nodup) (b : Nat) (p q : Nat → Bool)
    (hagree : ∀ x ∈ l, x ≠ b → p x = q x) :
    l.countP p + (if b ∈ l ∧ q b = true then 1 else 0)
      = l.countP q + (if b ∈ l ∧ p b = true then 1 else 0) := by
  induction l with
  | nil => simp
  | cons x xs ih =>
    have hx : x ∉ xs := (List.nodup_cons.mp hl).1
    have hxs : xs.Nodup := (List.nodup_cons.mp hl).2
    have ih' := ih hxs (fun y hy hyb => hagree y (List.mem_cons_of_mem _ hy) hyb)
    rcases eq_or_ne x b with rfl | hne
    · have htail : xs.countP p = xs.countP q := by
        simpa [hx] using ih'
      simp only [List.countP_cons, List.mem_cons, true_or, true_and, htail]
      by_cases hp : p x = true <;> by_cases hq : q x = true <;> simp [hp, hq]
    · have hpx : p x = q x := hagree x (List.mem_cons_self _ _) hne
      have hbx : ¬(b = x) := fun hbx => hne hbx.symm
      by_cases hb : b ∈ xs
      · simp only [List.countP_cons, hpx, List.mem_cons, hbx, hb, or_true,
          false_or, true_and] at ih' ⊢
        omega
      · simp only [List.countP_cons, hpx, List.mem_cons, hbx, hb, or_false,
          false_or, false_and, if_false] at ih' ⊢
        omega

lemma sum_map_add_eq {l : List Nat} {f g u w : Nat → Nat}
    (h : ∀ x ∈ l, f x + u x = g x + w x) :
    (l.map f).sum + (l.map u).sum = (l.map g).sum + (l.map w).sum := by
  induction l with
  | nil => simp
  | cons x xs ih =>
    have hx := h x (List.mem_cons_self _ _)
    have := ih (fun y hy => h y (List.mem_cons_of_mem _ hy))
    simp only [List.map_cons, List.sum_cons]
    omega

end ListFacts

namespace Cuckoo

/-- Inner loop of member `count`: matches of key `k` under hash `hid`
(`rows[addr * bucket_size + bi] == row` for `bi` below `bucket_size`). -/
def bucketMatches (c : Cuckoo) (T : Table) (hid k : Nat) : Nat :=
  (List.range c.bucketSize).countP
    (fun bi => T.getD ((c.addr_row hid k).1 * c.bucketSize + bi) 0 == (c.addr_row hid k).2)

/-- Member `count`: number of occurrences of key `k` in the table, summed
over all hash functions. -/
def count (c : Cuckoo) (T : Table) (k : Nat) : Nat :=
  ((List.range c.nHash).map (fun hid => bucketMatches c T hid k)).sum

/-- Key `k` is stored under hash `h`: some lane of its bucket holds its row. -/
def stored (c : Cuckoo) (T : Table) (h k : Nat) : Prop :=
  ∃ r < c.bucketSize,
    T.getD ((c.addr_row h k).1 * c.bucketSize + r) 0 = (c.addr_row h k).2

/-- Key `k` occurs somewhere in the table. -/
def present (c : Cuckoo) (T : Table) (k : Nat) : Prop :=
  ∃ h < c.nHash, stored c T h k

/-- All lanes of bucket `a` are occupied. -/
def bucketFull (c : Cuckoo) (T : Table) (a : Nat) : Prop :=
  ∀ r < c.bucketSize, T.getD (a * c.bucketSize + r) 0 ≠ 0

/-- Every occupied slot decodes: it holds `addr_row` of a valid hash id and
key whose bucket is the slot's bucket.  This is the recoverability
invariant of the slab. -/
def wfTable (c : Cuckoo) (T : Table) : Prop :=
  ∀ j < nSlots c, T.getD j 0 ≠ 0 →
    ∃ h k, h < c.nHash ∧ k < 2 ^ c.keyWidth ∧
      c.addr_row h k = (j / c.bucketSize, T.getD j 0)

/-- In every bucket the occupied lanes form a left prefix (reachable tables
have this shape: `coop_put` fills lane `load` and evictions overwrite). -/
def packed (c : Cuckoo) (T : Table) : Prop :=
  ∀ a < 2 ^ c.addrWidth, ∀ r₁ r₂ : Nat, r₁ ≤ r₂ → r₂ < c.bucketSize →
    T.getD (a * c.bucketSize + r₂) 0 ≠ 0 → T.getD (a * c.bucketSize + r₁) 0 ≠ 0

/-- Probe-order invariant: a key stored under hash `h` has all its buckets
for earlier hash ids full, which justifies the early exit of `coop_find`. -/
def findInv (c : Cuckoo) (T : Table) : Prop :=
  ∀ k < 2 ^ c.keyWidth, ∀ h < c.nHash, stored c T h k →
    ∀ h' < h, bucketFull c T (c.addr_row h' k).1

/-- Effect of one slot write on the per-hash match count, in additive form. -/
lemma bucketMatches_set (c : Cuckoo) (hB : 0 < c.bucketSize) {T : Table} {j v : Nat}
    (hjT : j < T.length) (hid K : Nat) :
    bucketMatches c (T.set j v) hid K
      + (if (c.addr_row hid K).1 = j / c.bucketSize ∧ T.getD j 0 = (c.addr_row hid K).2
         then 1 else 0)
    = bucketMatches c T hid K
      + (if (c.addr_row hid K).1 = j / c.bucketSize ∧ v = (c.addr_row hid K).2
         then 1 else 0) := by
  obtain ⟨a, row, har⟩ : ∃ a row, c.addr_row hid K = (a, row) := ⟨_, _, rfl⟩
  unfold bucketMatches
  rw [har]
  dsimp only
  by_cases hdiv : a = j / c.bucketSize
  · subst hdiv
    have hjeq : j / c.bucketSize * c.bucketSize + j % c.bucketSize = j := by
      rw [Nat.mul_comm]
      exact Nat.div_add_mod j c.bucketSize
    have hmem : j % c.bucketSize ∈ List.range c.bucketSize :=
      List.mem_range.mpr (Nat.mod_lt _ hB)
    have hupd := countP_update (List.range c.bucketSize) (List.nodup_range _) (j % c.bucketSize)
      (fun bi => (T.set j v).getD (j / c.bucketSize * c.bucketSize + bi) 0 == row)
      (fun bi => T.getD (j / c.bucketSize * c.bucketSize + bi) 0 == row)
      (fun bi _ hbi => by
        have hne : j / c.bucketSize * c.bucketSize + bi ≠ j := fun hcontra => hbi (by omega)
        show ((T.set j v).getD (j / c.bucketSize * c.bucketSize + bi) 0 == row)
            = (T.getD (j / c.bucketSize * c.bucketSize + bi) 0 == row)
        rw [getD_set_ne (fun hh => hne hh.symm)])
    have hset : (T.set j v).getD (j / c.bucketSize * c.bucketSize + j % c.bucketSize) 0 = v := by
      rw [hjeq]
      exact getD_set_self hjT
    have hold : T.getD (j / c.bucketSize * c.bucketSize + j % c.bucketSize) 0
        = T.getD j 0 := by
      rw [hjeq]
    simp only [hmem, true_and, hset, hold, beq_iff_eq] at hupd
    simpa using hupd
  · have hall : ∀ bi ∈ List.range c.bucketSize,
        ((T.set j v).getD (a * c.bucketSize + bi) 0 == row)
          = (T.getD (a * c.bucketSize + bi) 0 == row) := by
      intro bi hbi
      have hbi' : bi < c.bucketSize := List.mem_range.mp hbi
      have hne : a * c.bucketSize + bi ≠ j := by
        intro hcontra
        apply hdiv
        rw [← hcontra, slot_div hbi']
      rw [getD_set_ne (fun hh => hne hh.symm)]
    rw [List.countP_congr (fun x hx => by rw [hall x hx])]
    simp [hdiv]

/-- Indicator sum over an index range. -/
lemma sum_indicator_range (n h : Nat) :
    ((List.range n).map (fun i => if i = h then 1 else 0)).sum
      = if h < n then 1 else 0 := by
  induction n with
  | zero => simp
  | succ m ih =>
    rw [List.range_succ, List.map_append, List.sum_append, ih]
    by_cases hm : m = h
    · subst hm
      simp [Nat.lt_irrefl, Nat.lt_succ_self]
    · simp only [List.map_cons, List.map_nil, List.sum_cons, List.sum_nil, hm, if_false]
      split_ifs <;> omega

/-- Decoding a slot value pins down the unique key it counts for: summed
over all hash ids, a slot holding the row of `(h, k)` contributes exactly
one match, to key `k`. -/
lemma sum_hits (c : Cuckoo) (hwf : c.WF) {a rowv h k : Nat}
    (hh : h < c.nHash) (hk : k < 2 ^ c.keyWidth)
    (hav : c.addr_row h k = (a, rowv)) (K : Nat) (hK : K < 2 ^ c.keyWidth) :
    ((List.range c.nHash).map
      (fun hid => if (c.addr_row hid K).1 = a ∧ rowv = (c.addr_row hid K).2
                  then 1 else 0)).sum
      = if K = k then 1 else 0 := by
  by_cases hKk : K = k
  · subst hKk
    have hsingle : ∀ hid ∈ List.range c.nHash,
        (if (c.addr_row hid K).1 = a ∧ rowv = (c.addr_row hid K).2 then 1 else 0)
          = (if hid = h then 1 else 0) := by
      intro hid hmem
      have hhid : hid < c.nHash := List.mem_range.mp hmem
      by_cases hidh : hid = h
      · subst hidh
        simp [hav]
      · have hno : ¬((c.addr_row hid K).1 = a ∧ rowv = (c.addr_row hid K).2) := by
          rintro ⟨h1, h2⟩
          have heq : c.addr_row hid K = c.addr_row h K := by
            rw [hav]
            exact Prod.ext h1 h2.symm
          exact hidh (addr_row_inj c hwf hhid hK hh hK heq).1
        simp [hno, hidh]
    rw [List.map_congr_left hsingle, sum_indicator_range]
    simp [hh]
  · have hall : ∀ hid ∈ List.range c.nHash,
        (if (c.addr_row hid K).1 = a ∧ rowv = (c.addr_row hid K).2 then 1 else 0)
          = 0 := by
      intro hid hmem
      have hhid : hid < c.nHash := List.mem_range.mp hmem
      have hno : ¬((c.addr_row hid K).1 = a ∧ rowv = (c.addr_row hid K).2) := by
        rintro ⟨h1, h2⟩
        have heq : c.addr_row hid K = c.addr_row h k := by
          rw [hav]
          exact Prod.ext h1 h2.symm
        exact hKk (addr_row_inj c hwf hhid hK hh hk heq).2
      simp [hno]
    rw [List.map_congr_left hall]
    simp [hKk]

/-- Effect of one slot write on `count`, in additive form, summed over all
hash functions. -/
lemma count_set_eq (c : Cuckoo) (hB : 0 < c.bucketSize) {T : Table} {j : Nat}
    (hjT : j < T.length) (rowv K : Nat) :
    count c (T.set j rowv) K
      + ((List.range c.nHash).map
          (fun hid => if (c.addr_row hid K).1 = j / c.bucketSize
              ∧ T.getD j 0 = (c.addr_row hid K).2 then 1 else 0)).sum
    = count c T K
      + ((List.range c.nHash).map
          (fun hid => if (c.addr_row hid K).1 = j / c.bucketSize
              ∧ rowv = (c.addr_row hid K).2 then 1 else 0)).sum := by
  unfold count
  exact sum_map_add_eq (fun hid _ => bucketMatches_set c hB hjT hid K)

/-- Writing the row of `(h, k)` over an empty slot of its bucket adds one
occurrence of `k` and leaves all other counts unchanged. -/
lemma count_set_empty (c : Cuckoo) (hwf : c.WF) {T : Table} {j h k : Nat}
    (hjT : j < T.length) (hB : 0 < c.bucketSize)
    (hh : h < c.nHash) (hk : k < 2 ^ c.keyWidth)
    (hdiv : (c.addr_row h k).1 = j / c.bucketSize) (hold : T.getD j 0 = 0)
    (K : Nat) (hK : K < 2 ^ c.keyWidth) :
    count c (T.set j (c.addr_row h k).2) K
      = count c T K + (if K = k then 1 else 0) := by
  have hbase := count_set_eq c hB hjT (c.addr_row h k).2 K
  have hzero : ((List.range c.nHash).map
      (fun hid => if (c.addr_row hid K).1 = j / c.bucketSize
          ∧ T.getD j 0 = (c.addr_row hid K).2 then 1 else 0)).sum = 0 := by
    apply List.sum_eq_zero
    intro x hx
    obtain ⟨hid, hmem, rfl⟩ := List.mem_map.mp hx
    have hhid : hid < c.nHash := List.mem_range.mp hmem
    have hnz := addr_row_snd_ne_zero c hwf hhid hK
    have hcond : ¬((c.addr_row hid K).1 = j / c.bucketSize
        ∧ T.getD j 0 = (c.addr_row hid K).2) := by
      rintro ⟨_, hc⟩
      rw [hold] at hc
      exact hnz hc.symm
    rw [if_neg hcond]
  have hnew := sum_hits c hwf hh hk
    (Prod.ext hdiv rfl :
      c.addr_row h k = (j / c.bucketSize, (c.addr_row h k).2)) K hK
  rw [hzero, hnew] at hbase
  omega

/-- Evicting the decodable row of `(hv, kv)` and writing the row of `(h, k)`
into the same slot removes one occurrence of `kv` and adds one of `k`. -/
lemma count_set_evict (c : Cuckoo) (hwf : c.WF) {T : Table} {j h k hv kv : Nat}
    (hjT : j < T.length) (hB : 0 < c.bucketSize)
    (hh : h < c.nHash) (hk : k < 2 ^ c.keyWidth)
    (hhv : hv < c.nHash) (hkv : kv < 2 ^ c.keyWidth)
    (hdiv : (c.addr_row h k).1 = j / c.bucketSize)
    (hvic : c.addr_row hv kv = (j / c.bucketSize, T.getD j 0))
    (K : Nat) (hK : K < 2 ^ c.keyWidth) :
    count c (T.set j (c.addr_row h k).2) K + (if K = kv then 1 else 0)
      = count c T K + (if K = k then 1 else 0) := by
  have hbase := count_set_eq c hB hjT (c.addr_row h k).2 K
  have hvictim := sum_hits c hwf hhv hkv hvic K hK
  have hnew := sum_hits c hwf hh hk
    (Prod.ext hdiv rfl :
      c.addr_row h k = (j / c.bucketSize, (c.addr_row h k).2)) K hK
  rw [hvictim, hnew] at hbase
  omega

/-- Loop of `coop_find`, iterating over the remaining hash ids: return true
on a matching lane, false on an empty lane, otherwise try the next hash. -/
def coop_findGo (c : Cuckoo) (T : Table) (k : Nat) : List Nat → Bool
  | [] => false
  | hid :: rest =>
    if (List.range c.bucketSize).any
        (fun r => T.getD ((c.addr_row hid k).1 * c.bucketSize + r) 0 == (c.addr_row hid k).2)
    then true
    else if (List.range c.bucketSize).any
        (fun r => T.getD ((c.addr_row hid k).1 * c.bucketSize + r) 0 == 0)
    then false
    else coop_findGo c T k rest

/-- Member `coop_find`: cooperative lookup of `k`, probing the hash
functions in order with early exit on a non-full bucket. -/
def coop_find (c : Cuckoo) (T : Table) (k : Nat) : Bool :=
  coop_findGo c T k (List.range c.nHash)

lemma coop_findGo_correct (c : Cuckoo) {T : Table} (hfi : findInv c T)
    {k : Nat} (hk : k < 2 ^ c.keyWidth) :
    ∀ n h0, h0 + n = c.nHash → (∀ h' < h0, ¬ stored c T h' k) →
      (coop_findGo c T k (List.range' h0 n) = true
        ↔ ∃ h, h0 ≤ h ∧ h < c.nHash ∧ stored c T h k) := by
  intro n
  induction n with
  | zero =>
    intro h0 hsum _
    simp only [List.range', coop_findGo]
    constructor
    · intro hfalse
      cases hfalse
    · rintro ⟨h, hge, hlt, _⟩
      omega
  | succ m ih =>
    intro h0 hsum hnot
    rw [List.range'_succ]
    unfold coop_findGo
    by_cases hmatch : (List.range c.bucketSize).any
        (fun r => T.getD ((c.addr_row h0 k).1 * c.bucketSize + r) 0 == (c.addr_row h0 k).2) = true
    · rw [if_pos hmatch]
      obtain ⟨r, hr, hpr⟩ := List.any_eq_true.mp hmatch
      exact iff_of_true rfl ⟨h0, Nat.le_refl _, by omega,
        ⟨r, List.mem_range.mp hr, beq_iff_eq.mp hpr⟩⟩
    · have hnost : ¬ stored c T h0 k := by
        rintro ⟨r, hr, hpr⟩
        exact hmatch (List.any_eq_true.mpr
          ⟨r, List.mem_range.mpr hr, beq_iff_eq.mpr hpr⟩)
      by_cases hzero : (List.range c.bucketSize).any
          (fun r => T.getD ((c.addr_row h0 k).1 * c.bucketSize + r) 0 == 0) = true
      · rw [if_neg hmatch, if_pos hzero]
        apply iff_of_false (by simp)
        rintro ⟨h, hge, hlt, hst⟩
        obtain ⟨r, hr, hpr⟩ := List.any_eq_true.mp hzero
        rcases Nat.eq_or_lt_of_le hge with rfl | hgt
        · exact hnost hst
        · have hfull := hfi k hk h hlt hst h0 hgt
          exact hfull r (List.mem_range.mp hr) (beq_iff_eq.mp hpr)
      · rw [if_neg hmatch, if_neg hzero]
        have hnot' : ∀ h' < h0 + 1, ¬ stored c T h' k := by
          intro h' hh'
          rcases Nat.lt_succ_iff_lt_or_eq.mp hh' with hlt | rfl
          · exact hnot h' hlt
          · exact hnost
        rw [ih (h0 + 1) (by omega) hnot']
        constructor
        · rintro ⟨h, hge, hlt, hst⟩
          exact ⟨h, by omega, hlt, hst⟩
        · rintro ⟨h, hge, hlt, hst⟩
          rcases Nat.eq_or_lt_of_le hge with rfl | hgt
          · exact absurd hst hnost
          · exact ⟨h, by omega, hlt, hst⟩

/-- Correctness of the cooperative find under the probe-order invariant:
`coop_find` returns true exactly when the key is present. -/
lemma coop_find_correct (c : Cuckoo) {T : Table} (hfi : findInv c T)
    {k : Nat} (hk : k < 2 ^ c.keyWidth) :
    coop_find c T k = true ↔ present c T k := by
  unfold coop_find
  rw [List.range_eq_range']
  rw [coop_findGo_correct c hfi hk c.nHash 0 (by omega)
    (fun h' hh' => absurd hh' (Nat.not_lt_zero h'))]
  constructor
  · rintro ⟨h, _, hlt, hst⟩
    exact ⟨h, hlt, hst⟩
  · rintro ⟨h, hlt, hst⟩
    exact ⟨h, Nat.zero_le _, hlt, hst⟩

/-- Slots of a valid bucket lie below `nSlots`. -/
lemma slot_lt_nSlots (c : Cuckoo) {a r : Nat} (ha : a < 2 ^ c.addrWidth)
    (hr : r < c.bucketSize) : a * c.bucketSize + r < nSlots c := by
  unfold nSlots
  calc a * c.bucketSize + r < a * c.bucketSize + c.bucketSize := by omega
  _ = (a + 1) * c.bucketSize := by ring
  _ ≤ 2 ^ c.addrWidth * c.bucketSize := Nat.mul_le_mul_right _ (by omega)

/-- Occupancy of a lane in a packed bucket is exactly `lane < load`. -/
lemma packed_char (c : Cuckoo) {T : Table} (hp : packed c T) {a : Nat}
    (ha : a < 2 ^ c.addrWidth) {r : Nat} (hr : r < c.bucketSize) :
    (T.getD (a * c.bucketSize + r) 0 ≠ 0
      ↔ r < (List.range c.bucketSize).countP
            (fun i => T.getD (a * c.bucketSize + i) 0 != 0)) := by
  constructor
  · intro hnz
    have hall : ∀ i ∈ List.range (r + 1),
        (fun i => T.getD (a * c.bucketSize + i) 0 != 0) i = true := by
      intro i hi
      have hi' : i < r + 1 := List.mem_range.mp hi
      have := hp a ha i r (by omega) hr hnz
      simpa [bne_iff_ne] using this
    have h1 : (List.range (r + 1)).countP
        (fun i => T.getD (a * c.bucketSize + i) 0 != 0) = r + 1 := by
      rw [List.countP_eq_length.mpr hall, List.length_range]
    have h2 : (List.range (r + 1)).countP
          (fun i => T.getD (a * c.bucketSize + i) 0 != 0)
        ≤ (List.range c.bucketSize).countP
          (fun i => T.getD (a * c.bucketSize + i) 0 != 0) :=
      ((List.range_sublist).mpr (by omega)).countP_le _
    omega
  · intro hlt
    by_contra hz
    have hsplit : List.range' 0 c.bucketSize
        = List.range' 0 r ++ List.range' (0 + r) (c.bucketSize - r) := by
      rw [List.range'_append_1 0 r (c.bucketSize - r)]
      congr 1
      omega
    have hupper : (List.range' (0 + r) (c.bucketSize - r)).countP
        (fun i => T.getD (a * c.bucketSize + i) 0 != 0) = 0 := by
      rw [List.countP_eq_zero]
      intro i hi
      have hi' : 0 + r ≤ i ∧ i < 0 + r + (c.bucketSize - r) := List.mem_range'_1.mp hi
      simp only [bne_iff_ne, ne_eq, Decidable.not_not]
      by_contra hinz
      exact (hp a ha r i (by omega) (by omega) hinz) hz
    have hlower : (List.range' 0 r).countP
        (fun i => T.getD (a * c.bucketSize + i) 0 != 0) ≤ r := by
      calc (List.range' 0 r).countP (fun i => T.getD (a * c.bucketSize + i) 0 != 0)
          ≤ (List.range' 0 r).length := List.countP_le_length _
      _ = r := List.length_range' _ _ _
    rw [List.range_eq_range', hsplit, List.countP_append] at hlt
    omega

/-- Overwriting an occupied slot with a nonzero row keeps buckets packed. -/
lemma packed_set_occupied (c : Cuckoo) {T : Table} {j v : Nat} (hj : j < T.length)
    (hold : T.getD j 0 ≠ 0) (hv : v ≠ 0) (hp : packed c T) : packed c (T.set j v) := by
  intro a ha r₁ r₂ h12 hr2 hnz
  by_cases h1 : a * c.bucketSize + r₁ = j
  · rw [h1, getD_set_self hj]
    exact hv
  · rw [getD_set_ne (fun hh => h1 hh.symm)]
    by_cases h2 : a * c.bucketSize + r₂ = j
    · apply hp a ha r₁ r₂ h12 hr2
      rw [h2]
      exact hold
    · rw [getD_set_ne (fun hh => h2 hh.symm)] at hnz
      exact hp a ha r₁ r₂ h12 hr2 hnz

/-- Inserting a nonzero row at lane `load` (the first free lane) keeps
buckets packed. -/
lemma packed_set_load (c : Cuckoo) {T : Table} (hp : packed c T) {a v : Nat}
    (ha : a < 2 ^ c.addrWidth)
    (hload : (List.range c.bucketSize).countP
        (fun i => T.getD (a * c.bucketSize + i) 0 != 0) < c.bucketSize)
    (hj : a * c.bucketSize
        + (List.range c.bucketSize).countP
            (fun i => T.getD (a * c.bucketSize + i) 0 != 0) < T.length)
    (hv : v ≠ 0) :
    packed c (T.set (a * c.bucketSize
      + (List.range c.bucketSize).countP
          (fun i => T.getD (a * c.bucketSize + i) 0 != 0)) v) := by
  set L := (List.range c.bucketSize).countP
      (fun i => T.getD (a * c.bucketSize + i) 0 != 0) with hL
  intro a' ha' r₁ r₂ h12 hr2 hnz
  by_cases haa : a' = a
  · subst haa
    by_cases hr1L : r₁ = L
    · rw [hr1L, getD_set_self hj]
      exact hv
    · have hne₁ : a' * c.bucketSize + r₁ ≠ a' * c.bucketSize + L := by omega
      rw [getD_set_ne (fun hh => hne₁ hh.symm)]
      have hr1lt : r₁ < L := by
        by_cases hr2L : r₂ = L
        · omega
        · have hne₂ : a' * c.bucketSize + r₂ ≠ a' * c.bucketSize + L := by omega
          rw [getD_set_ne (fun hh => hne₂ hh.symm)] at hnz
          have := (packed_char c hp ha' hr2).mp hnz
          omega
      exact (packed_char c hp ha' (by omega)).mpr hr1lt
  · have hne₁ : a' * c.bucketSize + r₁ ≠ a * c.bucketSize + L := by
      intro hcontra
      exact haa ((slot_eq_iff (by omega) hload).mp hcontra).1
    have hne₂ : a' * c.bucketSize + r₂ ≠ a * c.bucketSize + L := by
      intro hcontra
      exact haa ((slot_eq_iff hr2 hload).mp hcontra).1
    rw [getD_set_ne (fun hh => hne₂ hh.symm)] at hnz
    rw [getD_set_ne (fun hh => hne₁ hh.symm)]
    exact hp a' ha' r₁ r₂ h12 hr2 hnz

/-- Writing the row of `(h, k)` into a slot of its own bucket preserves the
recoverability invariant. -/
lemma wfTable_set (c : Cuckoo) {T : Table} {j h k : Nat} (hjT : j < T.length)
    (hh : h < c.nHash) (hk : k < 2 ^ c.keyWidth)
    (hdiv : (c.addr_row h k).1 = j / c.bucketSize)
    (hw : wfTable c T) : wfTable c (T.set j (c.addr_row h k).2) := by
  intro i hi hnz
  by_cases hij : i = j
  · subst hij
    refine ⟨h, k, hh, hk, ?_⟩
    rw [getD_set_self hjT]
    exact Prod.ext hdiv rfl
  · rw [getD_set_ne (fun hh' => hij hh'.symm)] at hnz ⊢
    exact hw i hi hnz

/-- Victim lane expression of the eviction step, verbatim from the source:
`(blockIdx.x * blockDim.x + tile.meta_group_rank() + chain_length) % bucket_size`. -/
def cuckoor (bIdx bDim mgr chain B : Nat) : Nat :=
  (bIdx * bDim + mgr + chain) % B

/-- Output of one cooperative put: the returned `Result`, the table after
the call, and the keys evicted during the chain, in order. -/
abbrev PutOut := Result × Table × List Nat

/-- Member `coop_put`, embedded sequentially for a single tile.  `bIdx`,
`bDim` and `mgr` are `blockIdx.x`, `blockDim.x` and
`tile.meta_group_rank()` of the executing tile; `dups` is the
`avoid_dups` template parameter.  The tile-wide loads, ballots and
shuffles of the source collapse to direct reads of the bucket; `atomicCAS`
and `atomicExch` collapse to a read followed by a write.  `fuel` bounds
the number of loop iterations; `none` means the loop did not return
within `fuel` rounds. -/
def coop_putGo (c : Cuckoo) (dups : Bool) (bIdx bDim mgr : Nat) :
    Nat → Nat → Nat → Nat → Table → Option PutOut
  | 0, _, _, _, _ => none
  | fuel + 1, k, hashid, chain, T =>
    let ar := c.addr_row hashid k
    let base := ar.1 * c.bucketSize
    if dups && (List.range c.bucketSize).any (fun r => T.getD (base + r) 0 == ar.2) then
      some (.FOUND, T, [])
    else
      let load := (List.range c.bucketSize).countP (fun r => T.getD (base + r) 0 != 0)
      if load < c.bucketSize then
        let tmp := T.getD (base + load) 0
        if tmp = 0 then some (.PUT, T.set (base + load) ar.2, [])
        else if dups && (tmp == ar.2) then some (.FOUND, T, [])
        else coop_putGo c dups bIdx bDim mgr fuel k hashid chain T
      else if c.maxChainLength ≤ chain then some (.FULL, T, [])
      else
        let v := cuckoor bIdx bDim mgr chain c.bucketSize
        let tmp := T.getD (base + v) 0
        let T' := T.set (base + v) ar.2
        if dups && (tmp == ar.2) then some (.FOUND, T', [])
        else
          let hk := c.hash_key ar.1 tmp
          match coop_putGo c dups bIdx bDim mgr fuel hk.2 ((hk.1 + 1) % c.nHash) (chain + 1) T' with
          | none => none
          | some (res, Tf, ev) => some (res, Tf, hk.2 :: ev)

/-- Top-level `coop_put` on key `k`: hash id and chain counter start at 0;
the fuel `maxChainLength + 1` is enough for every packed table. -/
def coop_put (c : Cuckoo) (dups : Bool) (bIdx bDim mgr : Nat) (k : Nat) (T : Table) :
    Option PutOut :=
  coop_putGo c dups bIdx bDim mgr (c.maxChainLength + 1) k 0 0 T

/-- One unfolding of the `coop_put` loop, fully inlined. -/
lemma coop_putGo_succ (c : Cuckoo) (dups : Bool) (bIdx bDim mgr fuel k hashid chain : Nat)
    (T : Table) :
    coop_putGo c dups bIdx bDim mgr (fuel + 1) k hashid chain T =
      if dups && (List.range c.bucketSize).any
          (fun r => T.getD ((c.addr_row hashid k).1 * c.bucketSize + r) 0
            == (c.addr_row hashid k).2) then
        some (.FOUND, T, [])
      else
        if (List.range c.bucketSize).countP
            (fun r => T.getD ((c.addr_row hashid k).1 * c.bucketSize + r) 0 != 0)
            < c.bucketSize then
          if T.getD ((c.addr_row hashid k).1 * c.bucketSize
              + (List.range c.bucketSize).countP
                  (fun r => T.getD ((c.addr_row hashid k).1 * c.bucketSize + r) 0 != 0)) 0
              = 0 then
            some (.PUT,
              T.set ((c.addr_row hashid k).1 * c.bucketSize
                + (List.range c.bucketSize).countP
                    (fun r => T.getD ((c.addr_row hashid k).1 * c.bucketSize + r) 0 != 0))
                (c.addr_row hashid k).2, [])
          else if dups && (T.getD ((c.addr_row hashid k).1 * c.bucketSize
              + (List.range c.bucketSize).countP
                  (fun r => T.getD ((c.addr_row hashid k).1 * c.bucketSize + r) 0 != 0)) 0
              == (c.addr_row hashid k).2) then
            some (.FOUND, T, [])
          else coop_putGo c dups bIdx bDim mgr fuel k hashid chain T
        else if c.maxChainLength ≤ chain then
          some (.FULL, T, [])
        else
          if dups && (T.getD ((c.addr_row hashid k).1 * c.bucketSize
              + cuckoor bIdx bDim mgr chain c.bucketSize) 0 == (c.addr_row hashid k).2) then
            some (.FOUND,
              T.set ((c.addr_row hashid k).1 * c.bucketSize
                  + cuckoor bIdx bDim mgr chain c.bucketSize)
                (c.addr_row hashid k).2, [])
          else
            match coop_putGo c dups bIdx bDim mgr fuel
                (c.hash_key (c.addr_row hashid k).1
                  (T.getD ((c.addr_row hashid k).1 * c.bucketSize
                    + cuckoor bIdx bDim mgr chain c.bucketSize) 0)).2
                (((c.hash_key (c.addr_row hashid k).1
                  (T.getD ((c.addr_row hashid k).1 * c.bucketSize
                    + cuckoor bIdx bDim mgr chain c.bucketSize) 0)).1 + 1) % c.nHash)
                (chain + 1)
                (T.set ((c.addr_row hashid k).1 * c.bucketSize
                    + cuckoor bIdx bDim mgr chain c.bucketSize)
                  (c.addr_row hashid k).2) with
            | none => none
            | some (res, Tf, ev) =>
              some (res, Tf,
                (c.hash_key (c.addr_row hashid k).1
                  (T.getD ((c.addr_row hashid k).1 * c.bucketSize
                    + cuckoor bIdx bDim mgr chain c.bucketSize) 0)).2 :: ev) :=
  rfl

/-- Bucket packing only depends on the `getD` view of the table. -/
lemma packed_congr (c : Cuckoo) {T T' : Table}
    (hpt : ∀ i, T'.getD i 0 = T.getD i 0) (hp : packed c T) : packed c T' := by
  intro a ha r₁ r₂ h12 hr2 hnz
  rw [hpt] at hnz ⊢
  exact hp a ha r₁ r₂ h12 hr2 hnz

/-- Recoverability only depends on the `getD` view of the table. -/
lemma wfTable_congr (c : Cuckoo) {T T' : Table}
    (hpt : ∀ i, T'.getD i 0 = T.getD i 0) (hw : wfTable c T) : wfTable c T' := by
  intro i hi hnz
  rw [hpt] at hnz ⊢
  exact hw i hi hnz

/-- Master invariant of the sequential `coop_put` loop: on a packed,
recoverable table with enough fuel the loop returns; it evicts at most
`maxChainLength - chain` keys, preserves the invariants, never clears an
occupied slot, writes only nonzero rows, reports `FOUND` only with
duplicate-avoidance on, and changes key multiplicities exactly by the
telescoping of its eviction chain. -/
lemma coop_putGo_spec (c : Cuckoo) (hwf : c.WF) (dups : Bool) (bIdx bDim mgr : Nat) :
    ∀ fuel k hashid chain (T : Table),
      hashid < c.nHash → k < 2 ^ c.keyWidth →
      nSlots c ≤ T.length → packed c T → wfTable c T →
      chain ≤ c.maxChainLength →
      c.maxChainLength + 1 ≤ fuel + chain →
      ∃ res Tf ev,
        coop_putGo c dups bIdx bDim mgr fuel k hashid chain T = some (res, Tf, ev)
        ∧ Tf.length = T.length
        ∧ packed c Tf
        ∧ wfTable c Tf
        ∧ ev.length + chain ≤ c.maxChainLength
        ∧ (∀ x ∈ ev, x < 2 ^ c.keyWidth)
        ∧ (dups = false → res ≠ .FOUND)
        ∧ (∀ i, T.getD i 0 ≠ 0 → Tf.getD i 0 ≠ 0)
        ∧ (∀ i, Tf.getD i 0 ≠ T.getD i 0 → Tf.getD i 0 ≠ 0)
        ∧ (res = .FULL → ∀ K, K < 2 ^ c.keyWidth →
            count c Tf K + (if K = ev.getLastD k then 1 else 0)
              = count c T K + (if K = k then 1 else 0))
        ∧ (res = .PUT → ∀ K, K < 2 ^ c.keyWidth →
            count c Tf K = count c T K + (if K = k then 1 else 0)) := by
  intro fuel
  induction fuel with
  | zero =>
    intro k hashid chain T _ _ _ _ _ hchain hfuel
    omega
  | succ fl ih =>
    intro k hashid chain T hh hk hTlen hp hw hchain hfuel
    have hBpos : 0 < c.bucketSize := hwf.bucket_pos
    have ha : (c.addr_row hashid k).1 < 2 ^ c.addrWidth := addr_row_fst_lt c hashid k
    have hrownz : (c.addr_row hashid k).2 ≠ 0 := addr_row_snd_ne_zero c hwf hh hk
    rw [coop_putGo_succ]
    by_cases hC1 : (dups && (List.range c.bucketSize).any
        (fun r => T.getD ((c.addr_row hashid k).1 * c.bucketSize + r) 0
          == (c.addr_row hashid k).2)) = true
    · rw [if_pos hC1]
      refine ⟨.FOUND, T, [], rfl, rfl, hp, hw, by simpa using hchain, by simp, ?_,
        fun i hi => hi, fun i hne => absurd rfl hne,
        fun hres => absurd hres (by decide), fun hres => absurd hres (by decide)⟩
      intro hdf
      rw [hdf] at hC1
      simp at hC1
    · rw [if_neg hC1]
      by_cases hload : (List.range c.bucketSize).countP
          (fun r => T.getD ((c.addr_row hashid k).1 * c.bucketSize + r) 0 != 0)
          < c.bucketSize
      · rw [if_pos hload]
        have htmp : T.getD ((c.addr_row hashid k).1 * c.bucketSize
            + (List.range c.bucketSize).countP
                (fun r => T.getD ((c.addr_row hashid k).1 * c.bucketSize + r) 0 != 0)) 0
            = 0 := by
          by_contra hnz
          have := (packed_char c hp ha hload).mp hnz
          omega
        rw [if_pos htmp]
        set j := (c.addr_row hashid k).1 * c.bucketSize
            + (List.range c.bucketSize).countP
                (fun r => T.getD ((c.addr_row hashid k).1 * c.bucketSize + r) 0 != 0) with hjdef
        have hjs : j < nSlots c := slot_lt_nSlots c ha hload
        have hjT : j < T.length := lt_of_lt_of_le hjs hTlen
        have hdiv : (c.addr_row hashid k).1 = j / c.bucketSize := (slot_div hload).symm
        refine ⟨.PUT, T.set j (c.addr_row hashid k).2, [], rfl, by simp,
          packed_set_load c hp ha hload hjT hrownz,
          wfTable_set c hjT hh hk hdiv hw,
          by simpa using hchain, by simp, fun _ => by decide, ?_, ?_,
          fun hres => absurd hres (by decide), ?_⟩
        · intro i hi
          by_cases hij : i = j
          · rw [hij] at hi
            exact absurd htmp hi
          · rw [getD_set_ne (fun hq => hij hq.symm)]
            exact hi
        · intro i hne
          by_cases hij : i = j
          · rw [hij, getD_set_self hjT]
            exact hrownz
          · rw [getD_set_ne (fun hq => hij hq.symm)] at hne
            exact absurd rfl hne
        · intro _ K hK
          exact count_set_empty c hwf hjT hBpos hh hk hdiv htmp K hK
      · rw [if_neg hload]
        by_cases hchainfull : c.maxChainLength ≤ chain
        · rw [if_pos hchainfull]
          refine ⟨.FULL, T, [], rfl, rfl, hp, hw, by simpa using hchain, by simp,
            fun _ => by decide, fun i hi => hi, fun i hne => absurd rfl hne,
            fun _ K hK => rfl, fun hres => absurd hres (by decide)⟩
        · rw [if_neg hchainfull]
          have hchainlt : chain < c.maxChainLength := by omega
          have hAll : ∀ r < c.bucketSize,
              T.getD ((c.addr_row hashid k).1 * c.bucketSize + r) 0 ≠ 0 := by
            intro r hr
            have hle : (List.range c.bucketSize).countP
                (fun r => T.getD ((c.addr_row hashid k).1 * c.bucketSize + r) 0 != 0)
                ≤ c.bucketSize :=
              le_of_le_of_eq (List.countP_le_length _) (List.length_range _)
            have hLB : (List.range c.bucketSize).countP
                (fun r => T.getD ((c.addr_row hashid k).1 * c.bucketSize + r) 0 != 0)
                = (List.range c.bucketSize).length := by
              rw [List.length_range]
              omega
            have hall := List.countP_eq_length.mp hLB r (List.mem_range.mpr hr)
            simpa [bne_iff_ne] using hall
          set v := cuckoor bIdx bDim mgr chain c.bucketSize with hvdef
          have hv : v < c.bucketSize := Nat.mod_lt _ hBpos
          set j := (c.addr_row hashid k).1 * c.bucketSize + v with hjdef
          have hjs : j < nSlots c := slot_lt_nSlots c ha hv
          have hjT : j < T.length := lt_of_lt_of_le hjs hTlen
          have htmpnz : T.getD j 0 ≠ 0 := hAll v hv
          obtain ⟨hv', kv, hhv, hkv, hdec⟩ := hw j hjs htmpnz
          have hdiva : j / c.bucketSize = (c.addr_row hashid k).1 := slot_div hv
          have hdec' : c.addr_row hv' kv = ((c.addr_row hashid k).1, T.getD j 0) := by
            rw [hdec, hdiva]
          have hhk : c.hash_key (c.addr_row hashid k).1 (T.getD j 0) = (hv', kv) := by
            have hrt := hash_key_addr_row c hwf hhv hkv
            rw [hdec'] at hrt
            exact hrt
          by_cases hC2 : (dups && (T.getD j 0 == (c.addr_row hashid k).2)) = true
          · rw [if_pos hC2]
            have hvals : (c.addr_row hashid k).2 = T.getD j 0 := by
              have hC2' := hC2
              rw [Bool.and_eq_true] at hC2'
              exact (beq_iff_eq.mp hC2'.2).symm
            have hpt : ∀ i, (T.set j (c.addr_row hashid k).2).getD i 0 = T.getD i 0 := by
              intro i
              by_cases hij : i = j
              · rw [hij, getD_set_self hjT, hvals]
              · rw [getD_set_ne (fun hq => hij hq.symm)]
            refine ⟨.FOUND, T.set j (c.addr_row hashid k).2, [], rfl, by simp,
              packed_congr c hpt hp, wfTable_congr c hpt hw,
              by simpa using hchain, by simp, ?_,
              fun i hi => by rw [hpt]; exact hi,
              fun i hne => absurd (hpt i) hne,
              fun hres => absurd hres (by decide), fun hres => absurd hres (by decide)⟩
            intro hdf
            rw [hdf] at hC2
            simp at hC2
          · rw [if_neg hC2]
            have hdiv' : (c.addr_row hashid k).1 = j / c.bucketSize := hdiva.symm
            have hp' : packed c (T.set j (c.addr_row hashid k).2) :=
              packed_set_occupied c hjT htmpnz hrownz hp
            have hw' : wfTable c (T.set j (c.addr_row hashid k).2) :=
              wfTable_set c hjT hh hk hdiv' hw
            have hlen' : (T.set j (c.addr_row hashid k).2).length = T.length := by simp
            obtain ⟨res, Tf, ev₁, heq₁, hlen₁, hp₁, hw₁, hevlen₁, hevb₁, hnf₁,
                hmono₁, hchg₁, hfull₁, hput₁⟩ :=
              ih kv ((hv' + 1) % c.nHash) (chain + 1) (T.set j (c.addr_row hashid k).2)
                (Nat.mod_lt _ hwf.hash_pos) hkv (by rw [hlen']; exact hTlen) hp' hw'
                (by omega) (by omega)
            have step := count_set_evict c hwf hjT hBpos hh hk hhv hkv hdiv' hdec
            refine ⟨res, Tf, kv :: ev₁, ?_, hlen₁.trans hlen', hp₁, hw₁, ?_, ?_, hnf₁,
              ?_, ?_, ?_, ?_⟩
            · simp only [hhk]
              rw [heq₁]
            · simp only [List.length_cons]
              omega
            · intro x hx
              rcases List.mem_cons.mp hx with rfl | hx'
              · exact hkv
              · exact hevb₁ x hx'
            · intro i hi
              apply hmono₁
              by_cases hij : i = j
              · rw [hij, getD_set_self hjT]
                exact hrownz
              · rw [getD_set_ne (fun hq => hij hq.symm)]
                exact hi
            · intro i hne
              by_cases hfi : Tf.getD i 0 = (T.set j (c.addr_row hashid k).2).getD i 0
              · by_cases hij : i = j
                · rw [hfi, hij, getD_set_self hjT]
                  exact hrownz
                · have hunch : (T.set j (c.addr_row hashid k).2).getD i 0 = T.getD i 0 :=
                    getD_set_ne (fun hq => hij hq.symm)
                  rw [hfi, hunch] at hne
                  exact absurd rfl hne
              · exact hchg₁ i hfi
            · intro hres K hK
              rw [List.getLastD_cons]
              exact (hfull₁ hres K hK).trans (step K hK)
            · intro hres K hK
              rw [hput₁ hres K hK]
              exact step K hK

end Cuckoo

section Dispatch

variable {α : Type}

/-- Iteration bound of the dispatchers:
`max = ((len + bucket_size - 1) / bucket_size) * bucket_size`. -/
def roundUp (len B : Nat) : Nat := ((len + B - 1) / B) * B

/-- Serving one position `i`: if the lane is pending (`act i`), the tile
invokes `F` on the key loaded at `i` and the leader stores the result at
its own index; otherwise nothing happens.  Keys are read only here, under
the `act` guard. -/
def posStep (F : Nat → α → Result × α) (keys : Nat → Nat) (act : Nat → Bool) :
    (List Result × α) → Nat → (List Result × α) :=
  fun st i =>
    if act i then
      (st.1.set i (F (keys i) st.2).1, (F (keys i) st.2).2)
    else st

/-- One tile round over the window `[w, w + B)`: the `while`/`ballot` loop
serves the pending lanes in rank order (the ballot elects the lowest
pending lane first). -/
def tileRun (F : Nat → α → Result × α) (keys : Nat → Nat) (act : Nat → Bool)
    (w B : Nat) (st : List Result × α) : List Result × α :=
  (List.range B).foldl (fun acc r => posStep F keys act acc (w + r)) st

/-- Member `coop`: grid-stride dispatcher over `[0, max)`; a lane acts iff
its position is in range (`i < len`).  Tiles are embedded in window order,
one legal schedule of the kernel. -/
def coop (F : Nat → α → Result × α) (keys : Nat → Nat) (len B : Nat)
    (results : List Result) (st : α) : List Result × α :=
  (List.range (roundUp len B / B)).foldl
    (fun acc wi => tileRun F keys (fun i => decide (i < len)) (wi * B) B acc) (results, st)

/-- Pending predicate of `coop_sorted` and `put_if_not_found_sorted`,
verbatim: `in_range && (index == 0 || k != start[i-1])`, where `index` is
the global thread index of the lane serving position `i`, that is
`i % stride`. -/
def pend (stride : Nat) (keys : Nat → Nat) (len i : Nat) : Bool :=
  decide (i < len) && (decide (i % stride = 0) || decide (keys i ≠ keys (i - 1)))

/-- Member `coop_sorted`: as `coop`, but a lane acts only on the first
position of a run of equal keys, per the `pend` predicate. -/
def coop_sorted (F : Nat → α → Result × α) (keys : Nat → Nat) (len stride B : Nat)
    (results : List Result) (st : α) : List Result × α :=
  (List.range (roundUp len B / B)).foldl
    (fun acc wi => tileRun F keys (pend stride keys len) (wi * B) B acc) (results, st)

lemma foldl_range_mul {β : Type} (g : β → Nat → β) (B : Nat) :
    ∀ (n : Nat) (st : β),
      (List.range n).foldl
          (fun acc wi => (List.range B).foldl (fun a r => g a (wi * B + r)) acc) st
        = (List.range (n * B)).foldl g st := by
  intro n
  induction n with
  | zero => intro st; simp
  | succ m ih =>
    intro st
    rw [List.range_succ, List.foldl_append, ih]
    have hmul : (m + 1) * B = m * B + B := by ring
    rw [hmul, List.range_add, List.foldl_append, List.foldl_map]
    simp only [List.foldl_cons, List.foldl_nil]

lemma roundUp_div_mul {len B : Nat} (hB : 0 < B) :
    roundUp len B / B * B = roundUp len B := by
  unfold roundUp
  rw [Nat.mul_div_cancel _ hB]

/-- The window-structured dispatcher equals the flat position fold. -/
lemma coop_eq_flat (F : Nat → α → Result × α) (keys : Nat → Nat) {len B : Nat}
    (hB : 0 < B) (results : List Result) (st : α) :
    coop F keys len B results st
      = (List.range (roundUp len B)).foldl
          (posStep F keys (fun i => decide (i < len))) (results, st) := by
  unfold coop tileRun
  rw [foldl_range_mul, roundUp_div_mul hB]

/-- The window-structured sorted dispatcher equals the flat position fold. -/
lemma coop_sorted_eq_flat (F : Nat → α → Result × α) (keys : Nat → Nat)
    {len stride B : Nat} (hB : 0 < B) (results : List Result) (st : α) :
    coop_sorted F keys len stride B results st
      = (List.range (roundUp len B)).foldl
          (posStep F keys (pend stride keys len)) (results, st) := by
  unfold coop_sorted tileRun
  rw [foldl_range_mul, roundUp_div_mul hB]

/-- Results length and out-of-list positions are preserved by the flat fold. -/
lemma posStep_foldl_frame (F : Nat → α → Result × α) (keys : Nat → Nat)
    (act : Nat → Bool) :
    ∀ (l : List Nat) (results : List Result) (st : α),
      ((l.foldl (posStep F keys act) (results, st)).1.length = results.length)
      ∧ (∀ p (d : Result), p ∉ l →
          (l.foldl (posStep F keys act) (results, st)).1.getD p d = results.getD p d) := by
  intro l
  induction l with
  | nil => exact fun results st => ⟨rfl, fun p d _ => rfl⟩
  | cons x xs ih =>
    intro results st
    simp only [List.foldl_cons]
    constructor
    · rcases hax : act x with _ | _
      · have := (ih results st).1
        simpa [posStep, hax] using this
      · have := (ih (results.set x (F (keys x) st).1) ((F (keys x) st).2)).1
        simpa [posStep, hax] using this
    · intro p d hp
      have hpx : p ≠ x := fun hc => hp (hc ▸ List.mem_cons_self _ _)
      have hpxs : p ∉ xs := fun hc => hp (List.mem_cons_of_mem _ hc)
      rcases hax : act x with _ | _
      · have := (ih results st).2 p d hpxs
        simpa [posStep, hax] using this
      · have := (ih (results.set x (F (keys x) st).1) ((F (keys x) st).2)).2 p d hpxs
        simp only [posStep, hax, if_pos] at this ⊢
        rw [this, getD_set_ne (fun hq => hpx hq.symm)]

/-- The flat fold reads keys only at acting positions: two key functions
that agree there produce identical dispatcher output. -/
lemma posStep_foldl_agree (F : Nat → α → Result × α) (keys₁ keys₂ : Nat → Nat)
    (act : Nat → Bool) (hkeys : ∀ i, act i = true → keys₁ i = keys₂ i) :
    ∀ (l : List Nat) (results : List Result) (st : α),
      l.foldl (posStep F keys₁ act) (results, st)
        = l.foldl (posStep F keys₂ act) (results, st) := by
  intro l
  induction l with
  | nil => intro results st; rfl
  | cons x xs ih =>
    intro results st
    simp only [List.foldl_cons]
    rcases hax : act x with _ | _
    · have h1 : posStep F keys₁ act (results, st) x = (results, st) := by
        simp [posStep, hax]
      have h2 : posStep F keys₂ act (results, st) x = (results, st) := by
        simp [posStep, hax]
      rw [h1, h2]
      exact ih results st
    · have h1 : posStep F keys₁ act (results, st) x
          = posStep F keys₂ act (results, st) x := by
        simp [posStep, hax, hkeys x hax]
      rw [h1]
      rcases hstep : posStep F keys₂ act (results, st) x with ⟨r', s'⟩
      exact ih r' s'

/-- Characterization of the flat dispatcher fold when `F` does not change
the shared state (as in the find pass): each acting in-bounds position
receives its own result, everything else is untouched. -/
lemma posStep_foldl_char (F : Nat → α → Result × α) (keys : Nat → Nat)
    (act : Nat → Bool) (hF : ∀ k s, (F k s).2 = s) :
    ∀ (l : List Nat) (results : List Result) (st : α),
      ((l.foldl (posStep F keys act) (results, st)).2 = st)
      ∧ (∀ p (d : Result),
          (l.foldl (posStep F keys act) (results, st)).1.getD p d
            = if p ∈ l ∧ act p = true ∧ p < results.length
              then (F (keys p) st).1 else results.getD p d) := by
  intro l
  induction l with
  | nil =>
    intro results st
    refine ⟨rfl, fun p d => ?_⟩
    simp
  | cons x xs ih =>
    intro results st
    simp only [List.foldl_cons]
    rcases hax : act x with _ | _
    · have h1 : posStep F keys act (results, st) x = (results, st) := by
        simp [posStep, hax]
      rw [h1]
      refine ⟨(ih results st).1, fun p d => ?_⟩
      rw [(ih results st).2 p d]
      by_cases hpx : p = x
      · subst hpx
        have hnx : ¬(p ∈ xs ∧ act p = true ∧ p < results.length) := by
          rintro ⟨_, hc, _⟩
          rw [hax] at hc
          cases hc
        have hnx' : ¬(p ∈ p :: xs ∧ act p = true ∧ p < results.length) := by
          rintro ⟨_, hc, _⟩
          rw [hax] at hc
          cases hc
        rw [if_neg hnx, if_neg hnx']
      · by_cases hmem : p ∈ xs ∧ act p = true ∧ p < results.length
        · rw [if_pos hmem, if_pos ⟨List.mem_cons_of_mem _ hmem.1, hmem.2⟩]
        · have : ¬(p ∈ x :: xs ∧ act p = true ∧ p < results.length) := by
            rintro ⟨hm, hc, hlen⟩
            rcases List.mem_cons.mp hm with rfl | hm'
            · exact hpx rfl
            · exact hmem ⟨hm', hc, hlen⟩
          rw [if_neg hmem, if_neg this]
    · have h1 : posStep F keys act (results, st) x
          = (results.set x (F (keys x) st).1, st) := by
        simp [posStep, hax, hF]
      rw [h1]
      refine ⟨(ih _ st).1, fun p d => ?_⟩
      rw [(ih _ st).2 p d]
      simp only [List.length_set]
      by_cases hpx : p = x
      · subst hpx
        by_cases hplen : p < results.length
        · by_cases hmem : p ∈ xs ∧ act p = true ∧ p < results.length
          · rw [if_pos hmem, if_pos ⟨List.mem_cons_self _ _, hax, hplen⟩]
          · rw [if_neg hmem, if_pos ⟨List.mem_cons_self _ _, hax, hplen⟩]
            exact getD_set_self hplen
        · have hset : results.set p (F (keys p) st).1 = results :=
            List.set_eq_of_length_le (by omega)
          have hn1 : ¬(p ∈ xs ∧ act p = true ∧ p < results.length) := by
            rintro ⟨_, _, hc⟩
            exact hplen hc
          have hn2 : ¬(p ∈ p :: xs ∧ act p = true ∧ p < results.length) := by
            rintro ⟨_, _, hc⟩
            exact hplen hc
          rw [if_neg hn1, if_neg hn2, hset]
      · have hgd : (results.set x (F (keys x) st).1).getD p d = results.getD p d :=
          getD_set_ne (fun hq => hpx hq.symm)
        by_cases hmem : p ∈ xs ∧ act p = true ∧ p < results.length
        · rw [if_pos hmem, if_pos ⟨List.mem_cons_of_mem _ hmem.1, hmem.2⟩]
        · have : ¬(p ∈ x :: xs ∧ act p = true ∧ p < results.length) := by
            rintro ⟨hm, hc, hlen⟩
            rcases List.mem_cons.mp hm with rfl | hm'
            · exact hpx rfl
            · exact hmem ⟨hm', hc, hlen⟩
          rw [if_neg hmem, if_neg this, hgd]

/-- The pending predicate reads keys only below `len`. -/
lemma pend_congr {keys₁ keys₂ : Nat → Nat} {len : Nat}
    (h : ∀ i < len, keys₁ i = keys₂ i) (stride : Nat) :
    pend stride keys₁ len = pend stride keys₂ len := by
  funext i
  unfold pend
  by_cases hl : i < len
  · rw [h i hl, h (i - 1) (by omega)]
  · simp [hl]

end Dispatch

namespace Cuckoo

/-- Positive count yields a stored occurrence. -/
lemma present_of_count_pos (c : Cuckoo) {T : Table} {k : Nat}
    (h : 0 < count c T k) : present c T k := by
  unfold count at h
  obtain ⟨x, hx, hxpos⟩ : ∃ x ∈ (List.range c.nHash).map
      (fun hid => bucketMatches c T hid k), 0 < x := by
    by_contra hall
    push_neg at hall
    have hz : ((List.range c.nHash).map (fun hid => bucketMatches c T hid k)).sum = 0 :=
      List.sum_eq_zero (fun x hx => by have := hall x hx; omega)
    omega
  obtain ⟨hid, hhid, rfl⟩ := List.mem_map.mp hx
  unfold bucketMatches at hxpos
  obtain ⟨bi, hbi, hpbi⟩ := List.countP_pos_iff.mp hxpos
  exact ⟨hid, List.mem_range.mp hhid,
    bi, List.mem_range.mp hbi, beq_iff_eq.mp hpbi⟩

/-- Member `coop_find_as_result`: `FOUND` if found, else `PUT`. -/
def coop_find_as_result (c : Cuckoo) (k : Nat) (T : Table) : Result × Table :=
  (if coop_find c T k then Result.FOUND else Result.PUT, T)

/-- One position of `put_if_not_found_sorted`: a first-occurrence whose
pass-1 result is not `FOUND` runs `coop_put` (its tile coordinates derive
from the serving thread index `i % stride`) and stores the outcome (also
recorded in a ghost log); a non-first in-range position is set to `FOUND`
unconditionally.  `none` propagates put-loop fuel exhaustion. -/
def pifnsStep (c : Cuckoo) (stride : Nat) (keys : Nat → Nat) (len : Nat) :
    Option (List Result × Table × List (Nat × Result × Table)) → Nat →
    Option (List Result × Table × List (Nat × Result × Table))
  | none, _ => none
  | some (results, T, log), i =>
    if pend stride keys len i && decide (results.getD i Result.FOUND ≠ Result.FOUND) then
      match coop_put c false ((i % stride) / blockSize) blockSize
          (((i % stride) % blockSize) / c.bucketSize) (keys i) T with
      | none => none
      | some (res, T', _) => some (results.set i res, T', log ++ [(i, res, T')])
    else if decide (i < len) && !(pend stride keys len i) then
      some (results.set i Result.FOUND, T, log)
    else
      some (results, T, log)

lemma pifnsStep_some (c : Cuckoo) (stride : Nat) (keys : Nat → Nat) (len : Nat)
    (results : List Result) (T : Table) (log : List (Nat × Result × Table)) (i : Nat) :
    pifnsStep c stride keys len (some (results, T, log)) i =
      if pend stride keys len i && decide (results.getD i Result.FOUND ≠ Result.FOUND) then
        match coop_put c false ((i % stride) / blockSize) blockSize
            (((i % stride) % blockSize) / c.bucketSize) (keys i) T with
        | none => none
        | some (res, T', _) => some (results.set i res, T', log ++ [(i, res, T')])
      else if decide (i < len) && !(pend stride keys len i) then
        some (results.set i Result.FOUND, T, log)
      else
        some (results, T, log) := rfl

/-- Member `put_if_not_found_sorted`, with the same window structure as the
dispatchers. -/
def put_if_not_found_sorted (c : Cuckoo) (stride : Nat) (keys : Nat → Nat) (len : Nat)
    (results : List Result) (T : Table) :
    Option (List Result × Table × List (Nat × Result × Table)) :=
  (List.range (roundUp len c.bucketSize / c.bucketSize)).foldl
    (fun acc wi => (List.range c.bucketSize).foldl
      (fun a r => pifnsStep c stride keys len a (wi * c.bucketSize + r)) acc)
    (some (results, T, []))

lemma pifns_eq_flat (c : Cuckoo) (stride : Nat) (keys : Nat → Nat) (len : Nat)
    (hB : 0 < c.bucketSize) (results : List Result) (T : Table) :
    put_if_not_found_sorted c stride keys len results T
      = (List.range (roundUp len c.bucketSize)).foldl
          (pifnsStep c stride keys len) (some (results, T, [])) := by
  unfold put_if_not_found_sorted
  rw [foldl_range_mul, roundUp_div_mul hB]

/-- Behaviour of the pass-2 fold on a duplicate-free position list: it
returns, keeps the invariants, and at each position in range either
coarsens a non-first occurrence to `FOUND`, keeps a found first
occurrence, or records the `coop_put` outcome (`PUT` or `FULL`, with `PUT`
certifying the key landed in the logged table). -/
lemma pifns_foldl_spec (c : Cuckoo) (hwf : c.WF) (stride : Nat) (keys : Nat → Nat)
    (len : Nat) (hkeys : ∀ i < len, keys i < 2 ^ c.keyWidth) :
    ∀ (l : List Nat), l.Nodup →
      ∀ (results : List Result) (T : Table) (log : List (Nat × Result × Table)),
      nSlots c ≤ T.length → packed c T → wfTable c T → len ≤ results.length →
      ∃ results' T' log',
        l.foldl (pifnsStep c stride keys len) (some (results, T, log))
          = some (results', T', log')
        ∧ results'.length = results.length
        ∧ T'.length = T.length
        ∧ packed c T'
        ∧ wfTable c T'
        ∧ (∀ e ∈ log, e ∈ log')
        ∧ (∀ p (d : Result), p ∉ l → results'.getD p d = results.getD p d)
        ∧ (∀ p ∈ l, ∀ (d : Result),
            (¬ p < len → results'.getD p d = results.getD p d)
            ∧ (p < len → pend stride keys len p = false →
                results'.getD p d = Result.FOUND)
            ∧ (p < len → pend stride keys len p = true →
                results.getD p Result.FOUND = Result.FOUND →
                  results'.getD p d = results.getD p d)
            ∧ (p < len → pend stride keys len p = true →
                results.getD p Result.FOUND ≠ Result.FOUND →
                ∃ r Tp, (p, r, Tp) ∈ log' ∧ results'.getD p d = r
                  ∧ (r = Result.PUT ∨ r = Result.FULL)
                  ∧ (r = Result.PUT → 0 < count c Tp (keys p)))) := by
  intro l
  induction l with
  | nil =>
    intro _ results T log hTlen hp hw hrlen
    exact ⟨results, T, log, rfl, rfl, rfl, hp, hw, fun e he => he,
      fun p d _ => rfl, fun p hp' => absurd hp' (List.not_mem_nil p)⟩
  | cons x xs ih =>
    intro hnd results T log hTlen hp hw hrlen
    have hxnotin : x ∉ xs := (List.nodup_cons.mp hnd).1
    have hndxs : xs.Nodup := (List.nodup_cons.mp hnd).2
    simp only [List.foldl_cons]
    by_cases hact : (pend stride keys len x
        && decide (results.getD x Result.FOUND ≠ Result.FOUND)) = true
    · -- first occurrence, pass-1 result not FOUND: run coop_put
      rw [Bool.and_eq_true] at hact
      have hfirst : pend stride keys len x = true := hact.1
      have hnfound : results.getD x Result.FOUND ≠ Result.FOUND :=
        of_decide_eq_true hact.2
      have hxlen : x < len := by
        have hf := hfirst
        unfold pend at hf
        rw [Bool.and_eq_true] at hf
        exact of_decide_eq_true hf.1
      have hkx : keys x < 2 ^ c.keyWidth := hkeys x hxlen
      obtain ⟨res, T', ev, heqp, hlen', hp', hw', _, _, hnf, _, _, _, hput⟩ :=
        coop_putGo_spec c hwf false ((x % stride) / blockSize) blockSize
          (((x % stride) % blockSize) / c.bucketSize)
          (c.maxChainLength + 1) (keys x) 0 0 T
          hwf.hash_pos hkx hTlen hp hw (by omega) (by omega)
      have hstep : pifnsStep c stride keys len (some (results, T, log)) x
          = some (results.set x res, T', log ++ [(x, res, T')]) := by
        rw [pifnsStep_some, if_pos (by rw [Bool.and_eq_true]; exact hact)]
        unfold coop_put
        rw [heqp]
      rw [hstep]
      obtain ⟨results'', T'', log'', heq₂, hrl₂, htl₂, hp₂, hw₂, hlog₂, hframe₂, hpos₂⟩ :=
        ih hndxs (results.set x res) T' (log ++ [(x, res, T')])
          (by rw [hlen']; exact hTlen) hp' hw' (by simpa using hrlen)
      have hxres : x < results.length := by omega
      refine ⟨results'', T'', log'', heq₂, by rw [hrl₂]; simp, htl₂.trans hlen',
        hp₂, hw₂, ?_, ?_, ?_⟩
      · intro e he
        exact hlog₂ e (List.mem_append_left _ he)
      · intro p d hpnot
        have hpxs : p ∉ xs := fun hc => hpnot (List.mem_cons_of_mem _ hc)
        have hpx : p ≠ x := fun hc => hpnot (hc ▸ List.mem_cons_self _ _)
        rw [hframe₂ p d hpxs, getD_set_ne (fun hq => hpx hq.symm)]
      · intro p hpmem d
        rcases List.mem_cons.mp hpmem with rfl | hpxs
        · have hunch : results''.getD p d = (results.set p res).getD p d :=
            hframe₂ p d hxnotin
          refine ⟨fun hnlen => absurd hxlen hnlen, ?_, ?_, ?_⟩
          · intro _ hpendf
            rw [hpendf] at hfirst
            cases hfirst
          · intro _ _ hfound
            exact absurd hfound hnfound
          · intro _ _ _
            refine ⟨res, T', hlog₂ _ (List.mem_append_right _ (by simp)), ?_, ?_, ?_⟩
            · rw [hunch, getD_set_self hxres]
            · rcases res with _ | _ | _
              · exact absurd rfl (hnf rfl)
              · exact Or.inl rfl
              · exact Or.inr rfl
            · intro hres
              have hc := hput hres (keys p) hkx
              rw [hc]
              simp
        · have hpx : p ≠ x := fun hc => hxnotin (hc ▸ hpxs)
          have hgd : ∀ d' : Result, (results.set x res).getD p d' = results.getD p d' :=
            fun d' => getD_set_ne (fun hq => hpx hq.symm)
          obtain ⟨c1, c2, c3, c4⟩ := hpos₂ p hpxs d
          refine ⟨?_, c2, ?_, ?_⟩
          · intro hh
            rw [c1 hh, hgd]
          · intro hh hf hfound
            rw [c3 hh hf (by rw [hgd]; exact hfound), hgd]
          · intro hh hf hnfound
            exact c4 hh hf (by rw [hgd]; exact hnfound)
    · -- no put at this position
      by_cases hwr : (decide (x < len) && !(pend stride keys len x)) = true
      · -- non-first occurrence in range: write FOUND
        rw [Bool.and_eq_true] at hwr
        have hxlen : x < len := of_decide_eq_true hwr.1
        have hpendf : pend stride keys len x = false := by
          rcases hpv : pend stride keys len x with _ | _
          · rfl
          · rw [hpv] at hwr
            cases hwr.2
        have hstep : pifnsStep c stride keys len (some (results, T, log)) x
            = some (results.set x Result.FOUND, T, log) := by
          rw [pifnsStep_some, if_neg hact,
            if_pos (by rw [Bool.and_eq_true]; exact hwr)]
        rw [hstep]
        obtain ⟨results'', T'', log'', heq₂, hrl₂, htl₂, hp₂, hw₂, hlog₂, hframe₂, hpos₂⟩ :=
          ih hndxs (results.set x Result.FOUND) T log hTlen hp hw (by simpa using hrlen)
        have hxres : x < results.length := by omega
        refine ⟨results'', T'', log'', heq₂, by rw [hrl₂]; simp, htl₂, hp₂, hw₂,
          hlog₂, ?_, ?_⟩
        · intro p d hpnot
          have hpxs : p ∉ xs := fun hc => hpnot (List.mem_cons_of_mem _ hc)
          have hpx : p ≠ x := fun hc => hpnot (hc ▸ List.mem_cons_self _ _)
          rw [hframe₂ p d hpxs, getD_set_ne (fun hq => hpx hq.symm)]
        · intro p hpmem d
          rcases List.mem_cons.mp hpmem with rfl | hpxs
          · have hunch : results''.getD p d = (results.set p Result.FOUND).getD p d :=
              hframe₂ p d hxnotin
            refine ⟨fun hnlen => absurd hxlen hnlen, ?_, ?_, ?_⟩
            · intro _ _
              rw [hunch, getD_set_self hxres]
            · intro _ hf _
              rw [hf] at hpendf
              cases hpendf
            · intro _ hf _
              rw [hf] at hpendf
              cases hpendf
          · have hpx : p ≠ x := fun hc => hxnotin (hc ▸ hpxs)
            have hgd : ∀ d' : Result,
                (results.set x Result.FOUND).getD p d' = results.getD p d' :=
              fun d' => getD_set_ne (fun hq => hpx hq.symm)
            obtain ⟨c1, c2, c3, c4⟩ := hpos₂ p hpxs d
            refine ⟨?_, c2, ?_, ?_⟩
            · intro hh
              rw [c1 hh, hgd]
            · intro hh hf hfound
              rw [c3 hh hf (by rw [hgd]; exact hfound), hgd]
            · intro hh hf hnfound
              exact c4 hh hf (by rw [hgd]; exact hnfound)
      · -- nothing happens at this position
        have hstep : pifnsStep c stride keys len (some (results, T, log)) x
            = some (results, T, log) := by
          rw [pifnsStep_some, if_neg hact, if_neg hwr]
        rw [hstep]
        obtain ⟨results'', T'', log'', heq₂, hrl₂, htl₂, hp₂, hw₂, hlog₂, hframe₂, hpos₂⟩ :=
          ih hndxs results T log hTlen hp hw hrlen
        refine ⟨results'', T'', log'', heq₂, hrl₂, htl₂, hp₂, hw₂, hlog₂, ?_, ?_⟩
        · intro p d hpnot
          exact hframe₂ p d (fun hc => hpnot (List.mem_cons_of_mem _ hc))
        · intro p hpmem d
          rcases List.mem_cons.mp hpmem with rfl | hpxs
          · -- at x nothing happened; derive which clause applies
            refine ⟨?_, ?_, ?_, ?_⟩
            · intro _
              exact hframe₂ p d hxnotin
            · intro hplen hpendf
              exfalso
              apply hwr
              rw [Bool.and_eq_true, hpendf]
              exact ⟨decide_eq_true hplen, rfl⟩
            · intro _ _ _
              exact hframe₂ p d hxnotin
            · intro hplen hpendt hnfound
              exfalso
              apply hact
              rw [Bool.and_eq_true, hpendt]
              exact ⟨rfl, decide_eq_true hnfound⟩
          · exact hpos₂ p hpxs d

/-- Member `find_or_put_sorted`: the pass-1 sorted dispatcher runs
`coop_find_as_result`, then `put_if_not_found_sorted` re-scans; both
passes are launched with `n_blocks = ⌈len / block_size⌉` blocks of
`block_size` threads, so the grid stride is
`n_blocks * block_size = roundUp len blockSize`. -/
def find_or_put_sorted (c : Cuckoo) (keys : List Nat) (results : List Result) (T : Table) :
    Option (List Result × Table × List (Nat × Result × Table)) :=
  put_if_not_found_sorted c (roundUp keys.length blockSize) (fun i => keys.getD i 0)
    keys.length
    (coop_sorted (coop_find_as_result c) (fun i => keys.getD i 0) keys.length
      (roundUp keys.length blockSize) c.bucketSize results T).1
    (coop_sorted (coop_find_as_result c) (fun i => keys.getD i 0) keys.length
      (roundUp keys.length blockSize) c.bucketSize results T).2

lemma le_roundUp (len B : Nat) (hB : 0 < B) : len ≤ roundUp len B := by
  unfold roundUp
  have hdm := Nat.div_add_mod (len + B - 1) B
  have hlt : (len + B - 1) % B < B := Nat.mod_lt _ hB
  rw [Nat.mul_comm]
  omega

/-- With a grid stride at least `len`, the pending predicate of the sorted
dispatcher is the first-occurrence test. -/
lemma pend_of_le_stride {stride len p : Nat} (h : len ≤ stride) (keys : Nat → Nat)
    (hp : p < len) :
    pend stride keys len p = (decide (p = 0) || decide (keys p ≠ keys (p - 1))) := by
  unfold pend
  have hmod : p % stride = p := Nat.mod_eq_of_lt (by omega)
  rw [hmod]
  simp [hp]

/-- End-to-end behaviour of the sorted find-or-put on an initial table
satisfying the reachability invariants: the call returns, positions that
are not first occurrences read `FOUND` unconditionally, and each first
occurrence reads `FOUND` exactly when its key was already present in the
initial table, otherwise the logged outcome of its `coop_put` (`PUT`, with
the key present in the logged post-state, or `FULL`). -/
lemma find_or_put_sorted_spec (c : Cuckoo) (hwf : c.WF) {keys : List Nat}
    {results : List Result} {T : Table}
    (hkeys : ∀ i < keys.length, keys.getD i 0 < 2 ^ c.keyWidth)
    (hTlen : nSlots c ≤ T.length) (hp : packed c T) (hw : wfTable c T)
    (hfi : findInv c T) (hrlen : results.length = keys.length) :
    ∃ results' T' log',
      find_or_put_sorted c keys results T = some (results', T', log')
      ∧ results'.length = results.length
      ∧ T'.length = T.length
      ∧ packed c T' ∧ wfTable c T'
      ∧ ∀ i < keys.length, ∀ d : Result,
          (¬(i = 0 ∨ keys.getD i 0 ≠ keys.getD (i - 1) 0) →
            results'.getD i d = Result.FOUND)
          ∧ ((i = 0 ∨ keys.getD i 0 ≠ keys.getD (i - 1) 0) →
              (present c T (keys.getD i 0) → results'.getD i d = Result.FOUND)
              ∧ (¬ present c T (keys.getD i 0) →
                  ∃ r Tp, (i, r, Tp) ∈ log' ∧ results'.getD i d = r
                    ∧ (r = Result.PUT ∨ r = Result.FULL)
                    ∧ (r = Result.PUT → present c Tp (keys.getD i 0)))) := by
  have hBpos : 0 < c.bucketSize := hwf.bucket_pos
  have hble : (0 : Nat) < blockSize := by decide
  have hstride : keys.length ≤ roundUp keys.length blockSize :=
    le_roundUp keys.length blockSize hble
  have hlenB : keys.length ≤ roundUp keys.length c.bucketSize :=
    le_roundUp keys.length c.bucketSize hBpos
  -- pass 1: characterize the sorted find dispatcher
  have hp1eq := @coop_sorted_eq_flat Table (coop_find_as_result c)
    (fun i => keys.getD i 0) keys.length (roundUp keys.length blockSize) c.bucketSize
    hBpos results T
  obtain ⟨hst1, hgd1⟩ := posStep_foldl_char (coop_find_as_result c)
    (fun i => keys.getD i 0)
    (pend (roundUp keys.length blockSize) (fun i => keys.getD i 0) keys.length)
    (fun _ _ => rfl)
    (List.range (roundUp keys.length c.bucketSize)) results T
  have hfr1 := posStep_foldl_frame (coop_find_as_result c)
    (fun i => keys.getD i 0)
    (pend (roundUp keys.length blockSize) (fun i => keys.getD i 0) keys.length)
    (List.range (roundUp keys.length c.bucketSize)) results T
  -- pass 2
  unfold find_or_put_sorted
  rw [hp1eq, hst1, pifns_eq_flat c _ _ _ hBpos]
  obtain ⟨results', T', log', heq₂, hrl₂, htl₂, hp₂, hw₂, _, _, hpos₂⟩ :=
    pifns_foldl_spec c hwf (roundUp keys.length blockSize) (fun i => keys.getD i 0)
      keys.length hkeys
      (List.range (roundUp keys.length c.bucketSize)) (List.nodup_range _)
      _ T [] hTlen hp hw (by rw [hfr1.1, hrlen])
  refine ⟨results', T', log', heq₂, by rw [hrl₂, hfr1.1], htl₂, hp₂, hw₂, ?_⟩
  intro i hilen d
  have himem : i ∈ List.range (roundUp keys.length c.bucketSize) :=
    List.mem_range.mpr (by omega)
  obtain ⟨c1, c2, c3, c4⟩ := hpos₂ i himem d
  have hpend : pend (roundUp keys.length blockSize) (fun i => keys.getD i 0) keys.length i
      = (decide (i = 0) || decide (keys.getD i 0 ≠ keys.getD (i - 1) 0)) :=
    pend_of_le_stride hstride _ hilen
  have hires : i < results.length := by omega
  constructor
  · intro hnof
    apply c2 hilen
    rw [hpend]
    have h1 : ¬(i = 0) := fun hc => hnof (Or.inl hc)
    have h2 : ¬(keys.getD i 0 ≠ keys.getD (i - 1) 0) := fun hc => hnof (Or.inr hc)
    rw [decide_eq_false h1, decide_eq_false h2]
    rfl
  · intro hof
    have hpendt : pend (roundUp keys.length blockSize) (fun i => keys.getD i 0)
        keys.length i = true := by
      rw [hpend]
      rcases hof with h | h
      · rw [decide_eq_true h, Bool.true_or]
      · rw [decide_eq_true h, Bool.or_true]
    have hval : ∀ d' : Result,
        ((List.range (roundUp keys.length c.bucketSize)).foldl
          (posStep (coop_find_as_result c) (fun i => keys.getD i 0)
            (pend (roundUp keys.length blockSize) (fun i => keys.getD i 0) keys.length))
          (results, T)).1.getD i d'
        = (if coop_find c T (keys.getD i 0) then Result.FOUND else Result.PUT) := by
      intro d'
      rw [hgd1 i d', if_pos ⟨himem, hpendt, hires⟩]
      rfl
    constructor
    · intro hpres
      have hfound : coop_find c T (keys.getD i 0) = true :=
        (coop_find_correct c hfi (hkeys i hilen)).mpr hpres
      have hFOUND : ∀ d' : Result,
          ((List.range (roundUp keys.length c.bucketSize)).foldl
            (posStep (coop_find_as_result c) (fun i => keys.getD i 0)
              (pend (roundUp keys.length blockSize) (fun i => keys.getD i 0) keys.length))
            (results, T)).1.getD i d' = Result.FOUND := by
        intro d'
        rw [hval d', if_pos hfound]
      rw [c3 hilen hpendt (hFOUND Result.FOUND)]
      exact hFOUND d
    · intro hnpres
      have hfound : coop_find c T (keys.getD i 0) = false := by
        rcases hcf : coop_find c T (keys.getD i 0) with _ | _
        · rfl
        · exact absurd ((coop_find_correct c hfi (hkeys i hilen)).mp hcf) hnpres
      have hPUT : ((List.range (roundUp keys.length c.bucketSize)).foldl
            (posStep (coop_find_as_result c) (fun i => keys.getD i 0)
              (pend (roundUp keys.length blockSize) (fun i => keys.getD i 0) keys.length))
            (results, T)).1.getD i Result.FOUND = Result.PUT := by
        rw [hval Result.FOUND, if_neg (by rw [hfound]; exact fun hc => nomatch hc)]
      obtain ⟨r, Tp, hmem, hres, hpf, hcnt⟩ :=
        c4 hilen hpendt (by rw [hPUT]; exact fun hc => nomatch hc)
      exact ⟨r, Tp, hmem, hres, hpf,
        fun hr => present_of_count_pos c (hcnt hr)⟩

lemma getD_eq_getElem' {β : Type} (l : List β) (n : Nat) (d : β) (h : n < l.length) :
    l.getD n d = l[n] := by
  rw [List.getD_eq_getElem?_getD, List.getElem?_eq_getElem h]
  rfl

/-- Index permutation of the stable sort of the key copies.  Modelled from
the spec: `thrust::stable_sort_by_key` (Thrust is not among the provided
sources) sorts the key copies by value, permuting the index array
`0 … L-1` in lockstep, stably; its index output is therefore the index
list ordered lexicographically by (key value, original position). -/
def stableIndices (keys : List Nat) : List Nat :=
  (List.range keys.length).mergeSort
    (fun i j => decide (keys.getD i 0 < keys.getD j 0
      ∨ (keys.getD i 0 = keys.getD j 0 ∧ i ≤ j)))

/-- Member `find_or_put`: copy the keys, stable-sort them remembering their
indices, and run `find_or_put_sorted` through the permutation views
`key_view[j] = keys[indices[j]]`, `res_view[j] = results[indices[j]]`;
the write through `res_view` places the result for caller position `p` at
`res[indexOf p indices]`. -/
def find_or_put (c : Cuckoo) (keys : List Nat) (results : List Result) (T : Table) :
    Option (List Result × Table × List (Nat × Result × Table)) :=
  match find_or_put_sorted c ((stableIndices keys).map (fun p => keys.getD p 0))
      ((stableIndices keys).map (fun p => results.getD p Result.PUT)) T with
  | none => none
  | some (res, T', log) =>
    some ((List.range keys.length).map
        (fun p => res.getD ((stableIndices keys).indexOf p) Result.PUT), T', log)

lemma stableIndices_perm (keys : List Nat) :
    (stableIndices keys).Perm (List.range keys.length) :=
  List.mergeSort_perm _ _

lemma stableIndices_length (keys : List Nat) :
    (stableIndices keys).length = keys.length := by
  rw [(stableIndices_perm keys).length_eq, List.length_range]

lemma mem_stableIndices {keys : List Nat} {p : Nat} :
    p ∈ stableIndices keys ↔ p < keys.length := by
  rw [(stableIndices_perm keys).mem_iff, List.mem_range]

lemma stableIndices_sorted (keys : List Nat) :
    (stableIndices keys).Pairwise
      (fun i j => keys.getD i 0 < keys.getD j 0
        ∨ (keys.getD i 0 = keys.getD j 0 ∧ i ≤ j)) := by
  have h := @List.sorted_mergeSort Nat
    (fun i j => decide (keys.getD i 0 < keys.getD j 0
      ∨ (keys.getD i 0 = keys.getD j 0 ∧ i ≤ j)))
    (fun a b cc hab hbc => by
      simp only [decide_eq_true_eq] at hab hbc ⊢
      omega)
    (fun a b => by
      simp only [Bool.or_eq_true, decide_eq_true_eq]
      omega)
    (List.range keys.length)
  exact h.imp (fun hab => of_decide_eq_true hab)

/-- The permuted key view is sorted. -/
lemma keyView_sorted (keys : List Nat) :
    ((stableIndices keys).map (fun p => keys.getD p 0)).Pairwise (· ≤ ·) :=
  List.Pairwise.map _
    (fun a b hab => by
      rcases hab with h | ⟨h, _⟩
      · exact Nat.le_of_lt h
      · exact Nat.le_of_eq h)
    (stableIndices_sorted keys)

/-- Caller position `p` appears in the sorted view at its rank
`indexOf p (stableIndices keys)`, and the view holds `keys[p]` there. -/
lemma keyView_rank (keys : List Nat) {p : Nat} (hp : p < keys.length) :
    (stableIndices keys).indexOf p < keys.length
    ∧ ((stableIndices keys).map (fun q => keys.getD q 0)).getD
        ((stableIndices keys).indexOf p) 0 = keys.getD p 0 := by
  have hmem : p ∈ stableIndices keys := mem_stableIndices.mpr hp
  have hrank : (stableIndices keys).indexOf p < (stableIndices keys).length :=
    List.indexOf_lt_length.mpr hmem
  have hrank' : (stableIndices keys).indexOf p < keys.length := by
    rw [← stableIndices_length keys]
    exact hrank
  refine ⟨hrank', ?_⟩
  have hmaplen : (stableIndices keys).indexOf p
      < ((stableIndices keys).map (fun q => keys.getD q 0)).length := by
    rw [List.length_map]
    exact hrank
  rw [getD_eq_getElem' _ _ _ hmaplen, List.getElem_map, List.getElem_indexOf hrank]

lemma le_lor_left (x y : Nat) : x ≤ x ||| y :=
  Nat.le_of_testBit (fun i hi => by rw [Nat.testBit_lor, hi, Bool.true_or])

/-- Rows are nonzero for any key argument (bounded or not): the state tag
bits survive both the bitwise or with the remainder and the `row_type`
truncation. -/
lemma addr_row_snd_ne_zero' (c : Cuckoo) (hwf : c.WF) {h : Nat}
    (hh : h < c.nHash) (k : Nat) : (c.addr_row h k).2 ≠ 0 := by
  unfold addr_row
  dsimp only
  have hstate : h + 1 < 2 ^ c.stateWidth :=
    lt_of_le_of_lt hh (nHash_lt_two_pow_stateWidth c)
  have hsw : c.stateWidth ≤ c.rowWidth := le_trans (Nat.le_add_right _ _) hwf.row_wide
  have hxlt : (h + 1) <<< (c.rowWidth - c.stateWidth) < 2 ^ c.rowWidth := by
    rw [Nat.shiftLeft_eq]
    calc (h + 1) * 2 ^ (c.rowWidth - c.stateWidth)
        < 2 ^ c.stateWidth * 2 ^ (c.rowWidth - c.stateWidth) :=
          (Nat.mul_lt_mul_right (Nat.two_pow_pos _)).mpr hstate
    _ = 2 ^ c.rowWidth := by
        rw [← Nat.pow_add]
        congr 1
        omega
  have hxpos : 0 < (h + 1) <<< (c.rowWidth - c.stateWidth) := by
    rw [Nat.shiftLeft_eq]
    exact Nat.mul_pos (Nat.succ_pos h) (Nat.two_pow_pos _)
  rw [← Nat.and_pow_two_sub_one_eq_mod, Nat.and_distrib_right,
    Nat.and_pow_two_sub_one_eq_mod, Nat.and_pow_two_sub_one_eq_mod,
    Nat.mod_eq_of_lt hxlt]
  exact (lt_of_lt_of_le hxpos (le_lor_left _ _)).ne'

/-- Unfolding of the eviction step of the `coop_put` loop (full bucket,
chain budget remaining, duplicate-avoidance off): the victim lane is
`cuckoor`, only its slot is overwritten with the current row, and the loop
continues with the key recovered by `hash_key` under the next hash id. -/
lemma coop_putGo_evict_step (c : Cuckoo) (bIdx bDim mgr fuel k hashid chain : Nat)
    (T : Table)
    (hfull : ¬((List.range c.bucketSize).countP
        (fun r => T.getD ((c.addr_row hashid k).1 * c.bucketSize + r) 0 != 0)
        < c.bucketSize))
    (hchain : chain < c.maxChainLength) :
    coop_putGo c false bIdx bDim mgr (fuel + 1) k hashid chain T
      = Option.map (fun out => (out.1, out.2.1,
          (c.hash_key (c.addr_row hashid k).1
            (T.getD ((c.addr_row hashid k).1 * c.bucketSize
              + cuckoor bIdx bDim mgr chain c.bucketSize) 0)).2 :: out.2.2))
        (coop_putGo c false bIdx bDim mgr fuel
          (c.hash_key (c.addr_row hashid k).1
            (T.getD ((c.addr_row hashid k).1 * c.bucketSize
              + cuckoor bIdx bDim mgr chain c.bucketSize) 0)).2
          (((c.hash_key (c.addr_row hashid k).1
            (T.getD ((c.addr_row hashid k).1 * c.bucketSize
              + cuckoor bIdx bDim mgr chain c.bucketSize) 0)).1 + 1) % c.nHash)
          (chain + 1)
          (T.set ((c.addr_row hashid k).1 * c.bucketSize
              + cuckoor bIdx bDim mgr chain c.bucketSize) (c.addr_row hashid k).2)) := by
  rw [coop_putGo_succ, if_neg (by simp), if_neg hfull, if_neg (by omega), if_neg (by simp)]
  rcases hrec : coop_putGo c false bIdx bDim mgr fuel
      (c.hash_key (c.addr_row hashid k).1
        (T.getD ((c.addr_row hashid k).1 * c.bucketSize
          + cuckoor bIdx bDim mgr chain c.bucketSize) 0)).2
      (((c.hash_key (c.addr_row hashid k).1
        (T.getD ((c.addr_row hashid k).1 * c.bucketSize
          + cuckoor bIdx bDim mgr chain c.bucketSize) 0)).1 + 1) % c.nHash)
      (chain + 1)
      (T.set ((c.addr_row hashid k).1 * c.bucketSize
          + cuckoor bIdx bDim mgr chain c.bucketSize) (c.addr_row hashid k).2)
      with _ | ⟨res, Tf, ev⟩
  · rfl
  · rfl

/-- Unfolding of the chain-exhausted step: with a full bucket and
`chain ≥ max_chain_length`, the loop returns `FULL` leaving the table as
it is. -/
lemma coop_putGo_full_step (c : Cuckoo) (bIdx bDim mgr fuel k hashid chain : Nat)
    (T : Table)
    (hfull : ¬((List.range c.bucketSize).countP
        (fun r => T.getD ((c.addr_row hashid k).1 * c.bucketSize + r) 0 != 0)
        < c.bucketSize))
    (hchain : c.maxChainLength ≤ chain) :
    coop_putGo c false bIdx bDim mgr (fuel + 1) k hashid chain T
      = some (.FULL, T, []) := by
  rw [coop_putGo_succ, if_neg (by simp), if_neg hfull, if_pos hchain]

/-- Single-lane buckets are trivially packed. -/
lemma packed_of_bucket_one (c : Cuckoo) (hB : c.bucketSize = 1) (T : Table) :
    packed c T := by
  intro a ha r₁ r₂ h12 hr2 hnz
  have h2 : r₂ = 0 := by omega
  have h1 : r₁ = 0 := by omega
  rw [h1]
  rw [h2] at hnz
  exact hnz

/-- An all-zero table is recoverable. -/
lemma wfTable_of_zero (c : Cuckoo) {T : Table} (hz : ∀ j, T.getD j 0 = 0) :
    wfTable c T :=
  fun j _ hnz => absurd (hz j) hnz

/-- An all-zero table satisfies the probe-order invariant. -/
lemma findInv_of_zero (c : Cuckoo) (hwf : c.WF) {T : Table}
    (hz : ∀ j, T.getD j 0 = 0) : findInv c T := by
  intro k hk h hh hst h' _
  obtain ⟨r, _, hpr⟩ := hst
  rw [hz] at hpr
  exact absurd hpr.symm (addr_row_snd_ne_zero c hwf hh hk)

/-- Concrete configuration for witnesses: 2-bit keys, 1-bit addresses,
8-bit rows, single-lane buckets, three hash functions, identity
permutation. -/
def testCfg : Cuckoo where
  rowWidth := 8
  bucketSize := 1
  nHash := 3
  keyWidth := 2
  addrWidth := 1
  perm := fun _ k => k
  permInv := fun _ k => k

lemma testCfg_wf : testCfg.WF where
  bucket_pos := by decide
  hash_pos := by decide
  addr_le := by decide
  row_wide := by decide
  perm_lt := fun _ k _ hk => hk
  perm_inv := fun _ _ _ _ => rfl

/-- Concrete configuration matching the boundary scenarios of the spec:
`Cuckoo<uint32_t, 32>` with `key_width = 21`, `addr_width = 5`, identity
permutation. -/
def testCfg32 : Cuckoo where
  rowWidth := 32
  bucketSize := 32
  nHash := 3
  keyWidth := 21
  addrWidth := 5
  perm := fun _ k => k
  permInv := fun _ k => k

lemma testCfg32_wf : testCfg32.WF where
  bucket_pos := by decide
  hash_pos := by decide
  addr_le := by decide
  row_wide := by decide
  perm_lt := fun _ k _ hk => hk
  perm_inv := fun _ _ _ _ => rfl

lemma zeros2 : ∀ j, (([0, 0] : Table)).getD j 0 = 0 := by
  intro j
  rcases j with _ | _ | j <;> rfl

/-- The table `[65, 0]`: key 2 stored under hash id 0 in bucket 0 of
`testCfg` (`addr_row 0 2 = (0, 65)`), bucket 1 empty. -/
lemma wf_table650 : wfTable testCfg [65, 0] := by
  intro j hj hnz
  have hj2 : j < 2 := hj
  match j, hj2 with
  | 0, _ =>
    refine ⟨0, 2, by decide, by decide, ?_⟩
    show testCfg.addr_row 0 2 = (0, 65)
    decide
  | 1, _ => exact absurd (by decide : (([65, 0] : Table)).getD 1 0 = 0) hnz

/-- Member `clear`, verbatim:
`thrust::fill(thrust::device, rows, rows + n_rows, 0)` — writes `n_rows`
zero rows (the Thrust fill is modelled from the spec; `n_rows` is the
constructor's field initialiser as written in the source). -/
def clear (c : Cuckoo) : Table := List.replicate c.n_rows 0

/-- Global index of the executing tile as the spec's victim formula reads
it (modelled from the spec: tiles are numbered consecutively across the
grid, `bDim / B` of them per block). -/
def globalTileIndex (bIdx bDim B mgr : Nat) : Nat := bIdx * (bDim / B) + mgr

/-- An inactive position is never written by the flat dispatcher fold. -/
lemma posStep_foldl_inact {α : Type} (F : Nat → α → Result × α) (keys : Nat → Nat)
    (act : Nat → Bool) {p : Nat} (hp : act p = false) :
    ∀ (l : List Nat) (results : List Result) (st : α) (d : Result),
      (l.foldl (posStep F keys act) (results, st)).1.getD p d = results.getD p d := by
  intro l
  induction l with
  | nil => intro results st d; rfl
  | cons x xs ih =>
    intro results st d
    simp only [List.foldl_cons]
    rcases hax : act x with _ | _
    · have h1 : posStep F keys act (results, st) x = (results, st) := by
        simp [posStep, hax]
      rw [h1]
      exact ih results st d
    · have h1 : posStep F keys act (results, st) x
          = (results.set x (F (keys x) st).1, (F (keys x) st).2) := by
        simp [posStep, hax]
      have hxp : x ≠ p := by
        intro he
        rw [he, hp] at hax
        cases hax
      rw [h1, ih _ _ d, getD_set_ne hxp]

/-- Reading every position of a list through `getD` reproduces the list. -/
lemma map_getD_range (keys : List Nat) :
    (List.range keys.length).map (fun p => keys.getD p 0) = keys := by
  apply List.ext_getElem
  · simp
  · intro i h1 h2
    simp only [List.getElem_map, List.getElem_range]
    rw [getD_eq_getElem' _ _ _ h2]

/-- The sorted key view is a permutation of the caller's keys. -/
lemma keyView_perm (keys : List Nat) :
    ((stableIndices keys).map (fun p => keys.getD p 0)).Perm keys := by
  have h := (stableIndices_perm keys).map (fun p => keys.getD p 0)
  rw [map_getD_range] at h
  exact h

/-- Key bounds transport to the sorted view. -/
lemma keyView_bound (c : Cuckoo) {keys : List Nat}
    (hkeys : ∀ p < keys.length, keys.getD p 0 < 2 ^ c.keyWidth) :
    ∀ i < ((stableIndices keys).map (fun p => keys.getD p 0)).length,
      ((stableIndices keys).map (fun p => keys.getD p 0)).getD i 0 < 2 ^ c.keyWidth := by
  intro i hi
  rw [getD_eq_getElem' _ _ _ hi, List.getElem_map]
  apply hkeys
  apply mem_stableIndices.mp
  exact List.getElem_mem _

/-- C1: for every hash id `i < n_hash_functions` and every key
`k < 2^key_width`, `hash_key (addr_row i k) = (i, k)`: the stored
(state, remainder) pair together with the bucket address reconstructs the
original key through the inverse permutation. -/
theorem C1_round_trip (c : Cuckoo) (hwf : c.WF) {i k : Nat}
    (hi : i < c.nHash) (hk : k < 2 ^ c.keyWidth) :
    c.hash_key (c.addr_row i k).1 (c.addr_row i k).2 = (i, k) :=
  hash_key_addr_row c hwf hi hk

/-- Witness for C1 at hash id 2 and key 3 of the test configuration. -/
theorem C1_round_trip_witness :
    testCfg.hash_key (testCfg.addr_row 2 3).1 (testCfg.addr_row 2 3).2 = (2, 3) :=
  C1_round_trip testCfg testCfg_wf (by decide) (by decide)

/-- C2: starting from a packed recoverable table, `coop_put` returns, every
slot occupied before stays occupied (no write ever clears a slot), and
every slot whose contents changed — by the empty-slot CAS or by the
eviction exchange — now holds a nonzero (occupied) row. -/
theorem C2_writes_nonzero (c : Cuckoo) (hwf : c.WF) (dups : Bool)
    (bIdx bDim mgr k : Nat) (T : Table) (hk : k < 2 ^ c.keyWidth)
    (hTlen : nSlots c ≤ T.length) (hp : packed c T) (hw : wfTable c T) :
    ∃ res Tf ev, coop_put c dups bIdx bDim mgr k T = some (res, Tf, ev)
      ∧ (∀ i, T.getD i 0 ≠ 0 → Tf.getD i 0 ≠ 0)
      ∧ (∀ i, Tf.getD i 0 ≠ T.getD i 0 → Tf.getD i 0 ≠ 0) := by
  obtain ⟨res, Tf, ev, heq, _, _, _, _, _, _, hmono, hwrite, _, _⟩ :=
    coop_putGo_spec c hwf dups bIdx bDim mgr (c.maxChainLength + 1) k 0 0 T
      hwf.hash_pos hk hTlen hp hw (Nat.zero_le _) (by omega)
  exact ⟨res, Tf, ev, heq, hmono, hwrite⟩

/-- Witness for C2: inserting key 1 into the empty two-slot test table. -/
theorem C2_writes_nonzero_witness :
    ∃ out, coop_put testCfg false 0 1 0 1 [0, 0] = some out := by
  obtain ⟨res, Tf, ev, heq, _, _⟩ :=
    C2_writes_nonzero testCfg testCfg_wf false 0 1 0 1 [0, 0] (by decide) (by decide)
      (packed_of_bucket_one testCfg rfl _) (wfTable_of_zero testCfg zeros2)
  exact ⟨(res, Tf, ev), heq⟩

/-- C3: the claim says a position is pending iff it is the first occurrence
of its key (`i = 0` or `keys i ≠ keys (i-1)`).  The source tests
`index == 0` — the serving *thread* index `i % stride` — instead of
`i == 0`, so at every grid-stride boundary a duplicate is treated as
pending: with stride 2 and constant keys, position 2 is pending although it
is not a first occurrence, and the sorted dispatcher invokes `F` twice on
the same key in one call, contradicting the claim (and the source's own
comment that each key is probed exactly once). -/
theorem C3_duplicate_probe :
    pend 2 (fun _ => 5) 4 2 = true
    ∧ ¬(2 = 0 ∨ ((fun _ => 5) : Nat → Nat) 2 ≠ ((fun _ => 5) : Nat → Nat) 1)
    ∧ (coop_sorted (fun k s => (Result.PUT, s ++ [k])) (fun _ => 5) 4 2 2
        (List.replicate 4 Result.PUT) ([] : List Nat)).2 = [5, 5] := by
  refine ⟨rfl, ?_, by decide⟩
  intro h
  rcases h with h | h
  · exact absurd h (by decide)
  · exact h rfl

/-- Counterexample for C4 as stated: inserting key 0 into the test table
`[65, 0]` (key 2 stored, one free slot, single-lane buckets) returns
`FULL`, the key 0 itself is among the keys evicted during the chain, yet
its multiplicity in the final table is 0 — an evicted key that is *not*
present afterwards, refuting "every key that was evicted during the chain
is present in the table". -/
theorem C4_counterexample :
    ((coop_put testCfg false 0 1 0 0 [65, 0]).map
        (fun out => (out.1, decide (0 ∈ out.2.2), count testCfg out.2.1 0)))
      = some (Result.FULL, true, 0) := by decide

/-- C4 (amended): when `coop_put` returns `FULL` the table holds, for every
key `K`, exactly the multiset of keys it held before plus the inserted key
`k` minus the *last* key evicted in the chain (`ev.getLastD k`, which is
`k` itself when nothing was evicted); intermediate evicted keys are
re-inserted by the chain and remain present, and on `PUT` the inserted key
is simply added. -/
theorem C4_full_last_evicted (c : Cuckoo) (hwf : c.WF) (bIdx bDim mgr k : Nat)
    (T : Table) (hk : k < 2 ^ c.keyWidth) (hTlen : nSlots c ≤ T.length)
    (hp : packed c T) (hw : wfTable c T) :
    ∃ res Tf ev, coop_put c false bIdx bDim mgr k T = some (res, Tf, ev)
      ∧ (res = .FULL → ∀ K, K < 2 ^ c.keyWidth →
          count c Tf K + (if K = ev.getLastD k then 1 else 0)
            = count c T K + (if K = k then 1 else 0))
      ∧ (res = .PUT → ∀ K, K < 2 ^ c.keyWidth →
          count c Tf K = count c T K + (if K = k then 1 else 0)) := by
  obtain ⟨res, Tf, ev, heq, _, _, _, _, _, _, _, _, hfull, hput⟩ :=
    coop_putGo_spec c hwf false bIdx bDim mgr (c.maxChainLength + 1) k 0 0 T
      hwf.hash_pos hk hTlen hp hw (Nat.zero_le _) (by omega)
  exact ⟨res, Tf, ev, heq, hfull, hput⟩

/-- Witness for the amended C4 on the saturating test table. -/
theorem C4_full_last_evicted_witness :
    ∃ out, coop_put testCfg false 0 1 0 0 [65, 0] = some out := by
  obtain ⟨res, Tf, ev, heq, _, _⟩ :=
    C4_full_last_evicted testCfg testCfg_wf 0 1 0 0 [65, 0] (by decide) (by decide)
      (packed_of_bucket_one testCfg rfl _) wf_table650
  exact ⟨(res, Tf, ev), heq⟩

/-- C5: the spec says the table has `N·B = 2^addr_width · bucket_size`
slots and that `clear` zeroes exactly that many rows.  The constructor's
initialiser reads
`n_rows((1ull << addr_width) * sizeof(*rows) * bucket_size)`, a factor
`sizeof(row_type)` too large: for the in-source scenario
`Cuckoo<uint32_t, 32>` with `addr_width = 5` (whose test comment says
"32 * 2^5 = 1024 rows") the slot count is 1024 but `n_rows` — the extent
`clear` zeroes and the constructor allocates — is 4096. -/
theorem C5_n_rows_bug :
    nSlots testCfg32 = 1024
    ∧ (clear testCfg32).length = n_rows testCfg32
    ∧ n_rows testCfg32 = 4096
    ∧ n_rows testCfg32 ≠ nSlots testCfg32 := by
  refine ⟨by decide, by simp [clear], by decide, by decide⟩

/-- C6: the sequential `coop_put` always terminates — fuel
`max_chain_length + 1` suffices on a packed recoverable table and the
chain performs at most `max_chain_length = 20·H` evictions; when a probed
bucket is full and the chain counter has reached `max_chain_length` the
loop returns `FULL` immediately; and each eviction of a row recovering to
`(h', k')` continues the chain with key `k'` under hash id
`(h' + 1) mod H`. -/
theorem C6_put_terminates (c : Cuckoo) (hwf : c.WF) (dups : Bool)
    (bIdx bDim mgr k : Nat) (T : Table) (hk : k < 2 ^ c.keyWidth)
    (hTlen : nSlots c ≤ T.length) (hp : packed c T) (hw : wfTable c T) :
    (∃ res Tf ev, coop_put c dups bIdx bDim mgr k T = some (res, Tf, ev)
        ∧ ev.length ≤ c.maxChainLength)
    ∧ c.maxChainLength = 20 * c.nHash
    ∧ (∀ fuel k' hashid chain (T' : Table),
        ¬((List.range c.bucketSize).countP
            (fun r => T'.getD ((c.addr_row hashid k').1 * c.bucketSize + r) 0 != 0)
          < c.bucketSize) →
        c.maxChainLength ≤ chain →
        coop_putGo c false bIdx bDim mgr (fuel + 1) k' hashid chain T'
          = some (.FULL, T', []))
    ∧ (∀ fuel k' hashid chain (T' : Table),
        ¬((List.range c.bucketSize).countP
            (fun r => T'.getD ((c.addr_row hashid k').1 * c.bucketSize + r) 0 != 0)
          < c.bucketSize) →
        chain < c.maxChainLength →
        coop_putGo c false bIdx bDim mgr (fuel + 1) k' hashid chain T'
          = Option.map (fun out => (out.1, out.2.1,
              (c.hash_key (c.addr_row hashid k').1
                (T'.getD ((c.addr_row hashid k').1 * c.bucketSize
                  + cuckoor bIdx bDim mgr chain c.bucketSize) 0)).2 :: out.2.2))
            (coop_putGo c false bIdx bDim mgr fuel
              (c.hash_key (c.addr_row hashid k').1
                (T'.getD ((c.addr_row hashid k').1 * c.bucketSize
                  + cuckoor bIdx bDim mgr chain c.bucketSize) 0)).2
              (((c.hash_key (c.addr_row hashid k').1
                (T'.getD ((c.addr_row hashid k').1 * c.bucketSize
                  + cuckoor bIdx bDim mgr chain c.bucketSize) 0)).1 + 1) % c.nHash)
              (chain + 1)
              (T'.set ((c.addr_row hashid k').1 * c.bucketSize
                  + cuckoor bIdx bDim mgr chain c.bucketSize)
                (c.addr_row hashid k').2))) := by
  refine ⟨?_, rfl, ?_, ?_⟩
  · obtain ⟨res, Tf, ev, heq, _, _, _, hev, _, _, _, _, _, _⟩ :=
      coop_putGo_spec c hwf dups bIdx bDim mgr (c.maxChainLength + 1) k 0 0 T
        hwf.hash_pos hk hTlen hp hw (Nat.zero_le _) (by omega)
    exact ⟨res, Tf, ev, heq, by omega⟩
  · intro fuel k' hashid chain T' hfull hchain
    exact coop_putGo_full_step c bIdx bDim mgr fuel k' hashid chain T' hfull hchain
  · intro fuel k' hashid chain T' hfull hchain
    exact coop_putGo_evict_step c bIdx bDim mgr fuel k' hashid chain T' hfull hchain

/-- Witness for C6: the put of key 0 on the empty test table returns
within the chain budget. -/
theorem C6_put_terminates_witness :
    ∃ out, coop_put testCfg false 0 1 0 0 [0, 0] = some out
      ∧ out.2.2.length ≤ testCfg.maxChainLength := by
  obtain ⟨res, Tf, ev, heq, hlen⟩ :=
    (C6_put_terminates testCfg testCfg_wf false 0 1 0 0 [0, 0] (by decide) (by decide)
      (packed_of_bucket_one testCfg rfl _) (wfTable_of_zero testCfg zeros2)).1
  exact ⟨(res, Tf, ev), heq, hlen⟩

/-- Counterexample for C7 as stated: the source computes the victim lane
from the *thread* coordinates, `(blockIdx·blockDim + meta_group_rank
+ chain) mod B`, not from the global tile index `blockIdx·(blockDim/B)
+ meta_group_rank`: for the second block of a 128-thread grid with 32-lane
tiles, tile 0, chain step 0, the source's victim lane is 0 while the
claimed formula gives 4. -/
theorem C7_counterexample :
    cuckoor 1 128 0 0 32 ≠ (globalTileIndex 1 128 32 0 + 0) % 32 := by decide

/-- C7 (amended): since `blockIdx·blockDim` is a multiple of the bucket
size whenever `B ∣ blockDim` (the source's launch configuration uses
`blockDim = 128` with `B` a power of two up to 32), the victim lane of
eviction step `chain` is `(meta_group_rank + chain) mod B` — rotating with
the chain counter, but independent of the global tile index. -/
theorem C7_victim_lane (bIdx bDim mgr chain B : Nat) (hdvd : B ∣ bDim) :
    cuckoor bIdx bDim mgr chain B = (mgr + chain) % B := by
  unfold cuckoor
  obtain ⟨q, rfl⟩ := hdvd
  have hre : bIdx * (B * q) + mgr + chain = mgr + chain + B * (bIdx * q) := by ring
  rw [hre, Nat.add_mul_mod_self_left]

/-- Witness for the amended C7 at the counterexample's coordinates. -/
theorem C7_victim_lane_witness : cuckoor 1 128 0 0 32 = (0 + 0) % 32 :=
  C7_victim_lane 1 128 0 0 32 ⟨4, rfl⟩

/-- C8: `find_or_put_sorted` on a sorted key range returns; every
non-first-occurrence position reads `FOUND` unconditionally (even when the
first occurrence of its key ends in `FULL`), and every first-occurrence
position reads `FOUND` exactly when its key was already present in the
initial table, and otherwise the logged outcome of its `coop_put`: `PUT`
with the key present in the logged post-state, or `FULL`. -/
theorem C8_sorted_results (c : Cuckoo) (hwf : c.WF) {keys : List Nat}
    {results : List Result} {T : Table}
    (hsorted : keys.Pairwise (· ≤ ·))
    (hkeys : ∀ i < keys.length, keys.getD i 0 < 2 ^ c.keyWidth)
    (hTlen : nSlots c ≤ T.length) (hp : packed c T) (hw : wfTable c T)
    (hfi : findInv c T) (hrlen : results.length = keys.length) :
    ∃ results' T' log',
      find_or_put_sorted c keys results T = some (results', T', log')
      ∧ results'.length = results.length
      ∧ T'.length = T.length
      ∧ packed c T' ∧ wfTable c T'
      ∧ ∀ i < keys.length, ∀ d : Result,
          (¬(i = 0 ∨ keys.getD i 0 ≠ keys.getD (i - 1) 0) →
            results'.getD i d = Result.FOUND)
          ∧ ((i = 0 ∨ keys.getD i 0 ≠ keys.getD (i - 1) 0) →
              (present c T (keys.getD i 0) → results'.getD i d = Result.FOUND)
              ∧ (¬ present c T (keys.getD i 0) →
                  ∃ r Tp, (i, r, Tp) ∈ log' ∧ results'.getD i d = r
                    ∧ (r = Result.PUT ∨ r = Result.FULL)
                    ∧ (r = Result.PUT → present c Tp (keys.getD i 0)))) :=
  find_or_put_sorted_spec c hwf hkeys hTlen hp hw hfi hrlen

/-- Witness for C8 on the sorted pair `[1, 1]` over the empty test table. -/
theorem C8_sorted_results_witness :
    ∃ out, find_or_put_sorted testCfg [1, 1] [Result.PUT, Result.PUT] [0, 0] = some out := by
  obtain ⟨results', T', log', heq, _⟩ :=
    @C8_sorted_results testCfg testCfg_wf [1, 1] [Result.PUT, Result.PUT] [0, 0]
      (by decide) (by decide) (by decide)
      (packed_of_bucket_one testCfg rfl _) (wfTable_of_zero testCfg zeros2)
      (findInv_of_zero testCfg testCfg_wf zeros2) rfl
  exact ⟨(results', T', log'), heq⟩

/-- C9: the unsorted `find_or_put` runs `find_or_put_sorted` through the
views of the stable sort of a copy of the keys (indices permuted in
lockstep): the key view it probes is sorted and a permutation of the
caller's keys, and the result written at caller position `p` is the sorted
call's result at the rank of `p` — the position of the view holding
exactly `keys[p]` — so result order matches the caller's key order (the
caller's key list itself is read, never written). -/
theorem C9_unsorted_refines (c : Cuckoo) (hwf : c.WF) {keys : List Nat}
    {results : List Result} {T : Table}
    (hkeys : ∀ p < keys.length, keys.getD p 0 < 2 ^ c.keyWidth)
    (hTlen : nSlots c ≤ T.length) (hp : packed c T) (hw : wfTable c T)
    (hfi : findInv c T) (hrlen : results.length = keys.length) :
    ((stableIndices keys).map (fun p => keys.getD p 0)).Pairwise (· ≤ ·)
    ∧ ((stableIndices keys).map (fun p => keys.getD p 0)).Perm keys
    ∧ ∃ res T' log',
        find_or_put_sorted c ((stableIndices keys).map (fun p => keys.getD p 0))
            ((stableIndices keys).map (fun p => results.getD p Result.PUT)) T
          = some (res, T', log')
        ∧ find_or_put c keys results T
            = some ((List.range keys.length).map
                (fun p => res.getD ((stableIndices keys).indexOf p) Result.PUT),
                T', log')
        ∧ ∀ p, p < keys.length → ∀ d : Result,
            ((List.range keys.length).map
                (fun q => res.getD ((stableIndices keys).indexOf q) Result.PUT)).getD p d
              = res.getD ((stableIndices keys).indexOf p) Result.PUT
            ∧ ((stableIndices keys).map (fun q => keys.getD q 0)).getD
                ((stableIndices keys).indexOf p) 0 = keys.getD p 0 := by
  refine ⟨keyView_sorted keys, keyView_perm keys, ?_⟩
  have hrlen' : ((stableIndices keys).map (fun p => results.getD p Result.PUT)).length
      = ((stableIndices keys).map (fun p => keys.getD p 0)).length := by
    simp
  obtain ⟨res, T', log', heq, _, _, _, _, _⟩ :=
    find_or_put_sorted_spec c hwf (keyView_bound c hkeys) hTlen hp hw hfi hrlen'
  refine ⟨res, T', log', heq, ?_, ?_⟩
  · unfold find_or_put
    rw [heq]
  · intro p hplen d
    have hmaplen : p < ((List.range keys.length).map
        (fun q => res.getD ((stableIndices keys).indexOf q) Result.PUT)).length := by
      simp [hplen]
    constructor
    · rw [getD_eq_getElem' _ _ _ hmaplen, List.getElem_map, List.getElem_range]
    · exact (keyView_rank keys hplen).2

/-- Witness for C9 on the unsorted pair `[2, 1]` over the empty test table. -/
theorem C9_unsorted_refines_witness :
    ∃ out, find_or_put testCfg [2, 1] [Result.PUT, Result.PUT] [0, 0] = some out := by
  obtain ⟨_, _, res, T', log', _, heq, _⟩ :=
    @C9_unsorted_refines testCfg testCfg_wf [2, 1] [Result.PUT, Result.PUT] [0, 0]
      (by decide) (by decide)
      (packed_of_bucket_one testCfg rfl _) (wfTable_of_zero testCfg zeros2)
      (findInv_of_zero testCfg testCfg_wf zeros2) rfl
  exact ⟨_, heq⟩

/-- C10: the dispatchers read keys only below `len` — two key functions
agreeing there yield identical output, although the iteration extends to
`len` rounded up to a window multiple — and never write a result at a
position at or beyond `len` (lanes beyond the range are never elected
leader because both activity predicates require `i < len`). -/
theorem C10_dispatch_bounds {α : Type} (F : Nat → α → Result × α)
    (keys₁ keys₂ : Nat → Nat) (len stride B : Nat) (hB : 0 < B)
    (hagree : ∀ i < len, keys₁ i = keys₂ i)
    (results : List Result) (st : α) :
    coop F keys₁ len B results st = coop F keys₂ len B results st
    ∧ coop_sorted F keys₁ len stride B results st
        = coop_sorted F keys₂ len stride B results st
    ∧ (∀ p, len ≤ p → ∀ d : Result,
        (coop F keys₁ len B results st).1.getD p d = results.getD p d)
    ∧ (∀ p, len ≤ p → ∀ d : Result,
        (coop_sorted F keys₁ len stride B results st).1.getD p d
          = results.getD p d) := by
  refine ⟨?_, ?_, ?_, ?_⟩
  · rw [coop_eq_flat F keys₁ hB results st, coop_eq_flat F keys₂ hB results st]
    refine posStep_foldl_agree F keys₁ keys₂ _ ?_ _ results st
    intro i hi
    exact hagree i (of_decide_eq_true hi)
  · rw [coop_sorted_eq_flat F keys₁ hB results st,
      coop_sorted_eq_flat F keys₂ hB results st, pend_congr hagree stride]
    refine posStep_foldl_agree F keys₁ keys₂ _ ?_ _ results st
    intro i hi
    apply hagree i
    unfold pend at hi
    rw [Bool.and_eq_true] at hi
    exact of_decide_eq_true hi.1
  · intro p hple d
    rw [coop_eq_flat F keys₁ hB results st]
    refine posStep_foldl_inact F keys₁ _ ?_ _ results st d
    exact decide_eq_false (by omega)
  · intro p hple d
    rw [coop_sorted_eq_flat F keys₁ hB results st]
    refine posStep_foldl_inact F keys₁ _ ?_ _ results st d
    unfold pend
    rw [decide_eq_false (show ¬ p < len by omega), Bool.false_and]

/-- Witness for C10: changing the keys beyond the range does not change the
dispatcher output. -/
theorem C10_dispatch_bounds_witness :
    coop (fun k s => (Result.PUT, s + k)) (fun i => i) 2 2
        [Result.PUT, Result.PUT, Result.PUT] 0
      = coop (fun k s => (Result.PUT, s + k)) (fun i => if i < 2 then i else 99) 2 2
        [Result.PUT, Result.PUT, Result.PUT] 0 :=
  (C10_dispatch_bounds (fun k s => (Result.PUT, s + k))
    (fun i => i) (fun i => if i < 2 then i else 99) 2 2 2 (by decide)
    (fun i hi => (if_pos hi).symm)
    [Result.PUT, Result.PUT, Result.PUT] 0).1

end Cuckoo

end CPHT

